import Mathlib

/-!
# The avdark cache model (`avdark-cache.cpp`)

A shallow embedding of the set-associative cache simulator: the line table,
the address decomposition, the lookup, the victim selection (`lru`), the fill,
the statistics, flush, resize and construction, followed by the properties
established about them.

Conventions of the embedding.

* `uint64_t` values (`avdc_pa_t`, `avdc_tag_t`) are `Nat`; where the source wraps
  (in `val - 1` of `is_power_of_two`, in the mask of `index_from_pa`) the wrap is
  written out with `% 2 ^ 64`.
* `int` values that may hold a timestamp are `Int`.  Signed overflow of the
  global `timestamp` is undefined in the source, so statements keep the clock
  inside the `int` range.
* The line table is a `List`; a read outside the table (undefined in the
  source) yields the zero line and a write outside the table is dropped.
* The process-wide variable `timestamp` is passed in and out explicitly.
-/

namespace AvdarkCache

/-! ## Data model -/

/-- Cache block information, `struct avdc_cache_line`: `tag` is an `avdc_tag_t`,
`valid` and `timestamp` are `int`. -/
structure avdc_cache_line where
  tag : Nat
  valid : Int
  timestamp : Int
deriving DecidableEq

/-- Modelled from the spec: the enumeration `avdc_access_type_t` is declared in the
header `avdark-cache.h`, which is not among the sources; the source switches on
its two values `AVDC_READ` and `AVDC_WRITE`. -/
inductive avdc_access_type_t where
  | AVDC_READ
  | AVDC_WRITE
deriving DecidableEq

/-- Modelled from the spec: `struct avdark_cache` is declared in the header
`avdark-cache.h`, which is not among the sources; the fields are exactly those
the source file reads and writes (`dbg_name` is only printed and is left out).
The sizes are unsigned and the derived values and counters are non-negative
`int`s, all held as `Nat`. -/
structure avdark_cache_t where
  dbg : Int
  lines : List avdc_cache_line
  size : Nat
  block_size : Nat
  assoc : Nat
  tag_shift : Nat
  block_size_log2 : Nat
  number_of_sets : Nat
  stat_data_write : Nat
  stat_data_write_miss : Nat
  stat_data_read : Nat
  stat_data_read_miss : Nat
deriving DecidableEq

/-- The read `self->lines[i]`. -/
def line_at (self : avdark_cache_t) (i : Nat) : avdc_cache_line :=
  self.lines.getD i ⟨0, 0, 0⟩

/-! ## Address decomposition -/

/-- The function `tag_from_pa`: `pa >> self->tag_shift`. -/
def tag_from_pa (self : avdark_cache_t) (pa : Nat) : Nat :=
  pa >>> self.tag_shift

/-- The function `index_from_pa`:
`(pa >> self->block_size_log2) & (self->number_of_sets - 1)`.  The `int`
`number_of_sets - 1` is widened to 64 bits for the mask, so `0 - 1` is the
all-ones word.  The result is returned as `int`, which is exact as soon as
`number_of_sets` is at least 1 (the masked value is then below it). -/
def index_from_pa (self : avdark_cache_t) (pa : Nat) : Nat :=
  (pa >>> self.block_size_log2) &&& ((self.number_of_sets + 2 ^ 64 - 1) % 2 ^ 64)

/-- The loop of `log2_int32`: `fuel` counts the iterations left until `i`
reaches 32. -/
def log2_int32_loop : Nat → Nat → Nat → Nat
  | 0, i, _ => i
  | fuel + 1, i, value =>
    if value >>> 1 = 0 then i else log2_int32_loop fuel (i + 1) (value >>> 1)

/-- The function `log2_int32`; the argument is converted to `uint32_t`. -/
def log2_int32 (value : Nat) : Nat :=
  log2_int32_loop 32 0 (value % 2 ^ 32)

/-- The function `is_power_of_two` on a `uint64_t`:
`((val & (val - 1)) == 0) && (val > 0)`, with `val - 1` wrapping at `2 ^ 64`. -/
def is_power_of_two (val : Nat) : Bool :=
  (val &&& ((val + 2 ^ 64 - 1) % 2 ^ 64) == 0) && decide (val > 0)

/-! ## Lookup and replacement -/

/-- The loop of `lru`: `for (i = index; i < lines; i += number_of_sets)`, carrying
`smallest_timestamp` and `cacheline`.  The first argument bounds the number of
iterations; `lru` passes `lines`, which the loop never exhausts before
`i < lines` fails. -/
def lru_loop (self : avdark_cache_t) (lines : Nat) : Nat → Nat → Int → Int → Int
  | 0, _, _, cacheline => cacheline
  | fuel + 1, i, smallest_timestamp, cacheline =>
    if i < lines then
      if (line_at self i).timestamp < smallest_timestamp then
        lru_loop self lines fuel (i + self.number_of_sets) (line_at self i).timestamp i
      else
        lru_loop self lines fuel (i + self.number_of_sets) smallest_timestamp cacheline
    else cacheline

/-- The function `lru`: `smallest_timestamp` starts at `4294967296`, `cacheline`
starts at the timestamp stored at `index`, and the scan runs over the lines
`index, index + number_of_sets, ...` below `assoc * number_of_sets`. -/
def lru (self : avdark_cache_t) (index : Nat) : Int :=
  lru_loop self (self.assoc * self.number_of_sets) (self.assoc * self.number_of_sets)
    index 4294967296 (line_at self index).timestamp

/-- The function `all_misses`: the flag starts true and is cleared by every
`hits[i] == 1` with `i < associativity`. -/
def all_misses (hits : List Int) (associativity : Nat) : Bool :=
  (List.range associativity).foldl
    (fun flag i => if hits.getD i 0 = 1 then false else flag) true

/-- The loop of `check_hits_in_sets` with `k` ways left and the running `_index`:
each entry is `valid && tag == tag` of the line at `_index`. -/
def check_hits_loop (self : avdark_cache_t) (tag : Nat) : Nat → Nat → List Int
  | 0, _ => []
  | k + 1, _index =>
    (if (line_at self _index).valid ≠ 0 ∧ (line_at self _index).tag = tag then 1 else 0)
      :: check_hits_loop self tag k (_index + self.number_of_sets)

/-- The function `check_hits_in_sets`: the array `hits` it leaves behind. -/
def check_hits_in_sets (self : avdark_cache_t) (index associativity tag : Nat) : List Int :=
  check_hits_loop self tag associativity index

/-- The victim position computed in the first line of `fill_cache_line`:
`associativity == 1 ? index : lru(self, index)`. -/
def fill_position (self : avdark_cache_t) (associativity index : Nat) : Int :=
  if associativity = 1 then (index : Int) else lru self index

/-- The function `fill_cache_line`: the line at the victim position becomes
valid with the given tag and timestamp.  The `int` position indexes the table; it
is a flat index of the addressed set whenever the timestamps of the set are
`int`s (see `fill_position_spec`). -/
def fill_cache_line (self : avdark_cache_t) (associativity index tag : Nat)
    (timestamp : Int) : avdark_cache_t :=
  { self with
    lines := self.lines.set (fill_position self associativity index).toNat
      ⟨tag, 1, timestamp⟩ }

/-- The function `record_statistics`. -/
def record_statistics (self : avdark_cache_t) (type : avdc_access_type_t)
    (only_misses : Bool) : avdark_cache_t :=
  match type with
  | .AVDC_READ =>
    { self with
      stat_data_read := self.stat_data_read + 1
      stat_data_read_miss := self.stat_data_read_miss + (if only_misses then 1 else 0) }
  | .AVDC_WRITE =>
    { self with
      stat_data_write := self.stat_data_write + 1
      stat_data_write_miss := self.stat_data_write_miss + (if only_misses then 1 else 0) }

/-- The local `only_misses` of `avdc_access`: the lookup found no hit. -/
def only_misses (self : avdark_cache_t) (pa : Nat) : Bool :=
  all_misses
    (check_hits_in_sets self (index_from_pa self pa) self.assoc (tag_from_pa self pa))
    self.assoc

/-- The function `avdc_access`, with the global `timestamp` passed in and its
new value returned next to the model.  The returned `timestamp + 1` is the
`timestamp++` of the source as long as `timestamp` is below 2147483647; at that
value the `int` increment overflows in the source, so every statement about the
clock keeps it below. -/
def avdc_access (self : avdark_cache_t) (timestamp : Int) (pa : Nat)
    (type : avdc_access_type_t) : avdark_cache_t × Int :=
  let tag := tag_from_pa self pa
  let index := index_from_pa self pa
  let associativity := self.assoc
  let hits := check_hits_in_sets self index associativity tag
  let only_misses := all_misses hits associativity
  let self1 := if only_misses then fill_cache_line self associativity index tag timestamp
    else self
  (record_statistics self1 type only_misses, timestamp + 1)

/-! ## Flush, resize, reset, construction -/

/-- The loop of `avdc_flush_cache`: for `i` from 0 up to `lines - 1` the line `i`
gets `valid = 0`, `tag = 0` and `timestamp = 0`. -/
def flush_loop (ls : List avdc_cache_line) (lines : Nat) : List avdc_cache_line :=
  (List.range lines).foldl (fun ls i => ls.set i ⟨0, 0, 0⟩) ls

/-- The function `avdc_flush_cache`, with `lines = size / block_size`. -/
def avdc_flush_cache (self : avdark_cache_t) : avdark_cache_t :=
  { self with lines := flush_loop self.lines (self.size / self.block_size) }

/-- The allocation `AVDC_MALLOC(n, avdc_cache_line_t)`: `n` lines whose contents
are indeterminate, given by `junk`. -/
def avdc_malloc (junk : Nat → avdc_cache_line) (n : Nat) : List avdc_cache_line :=
  (List.range n).map junk

/-- The function `avdc_resize`: the returned `int` and the model afterwards.
`junk` stands for the indeterminate contents of the newly allocated table. -/
def avdc_resize (junk : Nat → avdc_cache_line) (self : avdark_cache_t)
    (size block_size assoc : Nat) : Int × avdark_cache_t :=
  if !is_power_of_two size || !is_power_of_two block_size || !is_power_of_two assoc then
    (0, self)
  else
    let number_of_sets := (size / block_size) / assoc
    let block_size_log2 := log2_int32 block_size
    let self1 : avdark_cache_t :=
      { self with
        size := size
        block_size := block_size
        assoc := assoc
        number_of_sets := number_of_sets
        block_size_log2 := block_size_log2
        tag_shift := block_size_log2 + log2_int32 number_of_sets
        lines := avdc_malloc junk (number_of_sets * assoc) }
    (1, avdc_flush_cache self1)

/-- The function `avdc_reset_statistics`. -/
def avdc_reset_statistics (self : avdark_cache_t) : avdark_cache_t :=
  { self with
    stat_data_read := 0
    stat_data_read_miss := 0
    stat_data_write := 0
    stat_data_write_miss := 0 }

/-- The zeroed structure `avdc_new` starts from (`memset(self, 0, ...)`). -/
def zeroed : avdark_cache_t :=
  ⟨0, [], 0, 0, 0, 0, 0, 0, 0, 0, 0, 0⟩

/-- The function `avdc_new`: `none` is the `NULL` result. -/
def avdc_new (junk : Nat → avdc_cache_line) (size block_size assoc : Nat) :
    Option avdark_cache_t :=
  if (avdc_resize junk zeroed size block_size assoc).1 = 0 then none
  else some (avdc_resize junk zeroed size block_size assoc).2

/-! ## Running a trace -/

/-- A trace of accesses applied in order from the given clock; the result is the
final model, the final clock and, for each access, the value of `only_misses`
it computed (true for a miss). -/
def run_trace : avdark_cache_t → Int → List (Nat × avdc_access_type_t) →
    avdark_cache_t × Int × List Bool
  | self, timestamp, [] => (self, timestamp, [])
  | self, timestamp, a :: rest =>
    let r := run_trace (avdc_access self timestamp a.1 a.2).1
      (avdc_access self timestamp a.1 a.2).2 rest
    (r.1, r.2.1, only_misses self a.1 :: r.2.2)

/-! ## Predicates used in the statements -/

/-- The line stored in way `w` of the set `index`: the flat index is
`index + w * number_of_sets`. -/
def way_line (self : avdark_cache_t) (index w : Nat) : avdc_cache_line :=
  line_at self (index + w * self.number_of_sets)

/-- The timestamp stored in way `w` of the set `index`. -/
def way_ts (self : avdark_cache_t) (index w : Nat) : Int :=
  (way_line self index w).timestamp

/-- The way `w` of the set `index` holds a valid line with the given tag: the
test `valid && tag == tag` of `check_hits_in_sets`. -/
def way_hits (self : avdark_cache_t) (index tag w : Nat) : Prop :=
  (way_line self index w).valid ≠ 0 ∧ (way_line self index w).tag = tag

/-- A geometry the specification calls valid: three powers of two with
`assoc` at most the number of blocks; `size` stays in the `int` range, as the
`int` values derived from it require. -/
def ValidGeometry (size block_size assoc : Nat) : Prop :=
  is_power_of_two size = true ∧ is_power_of_two block_size = true ∧
    is_power_of_two assoc = true ∧ assoc ≤ size / block_size ∧ size < 2 ^ 31

instance (size block_size assoc : Nat) : Decidable (ValidGeometry size block_size assoc) := by
  unfold ValidGeometry; infer_instance

/-- A validly configured model: a valid geometry, the derived values `avdc_resize`
computes from it, a line table of `number_of_sets * assoc` lines, and stored
timestamps that are `int`s. -/
def Configured (self : avdark_cache_t) : Prop :=
  ValidGeometry self.size self.block_size self.assoc ∧
    self.number_of_sets = self.size / self.block_size / self.assoc ∧
    self.block_size_log2 = log2_int32 self.block_size ∧
    self.tag_shift = self.block_size_log2 + log2_int32 self.number_of_sets ∧
    self.lines.length = self.number_of_sets * self.assoc ∧
    ∀ l ∈ self.lines, -2147483648 ≤ l.timestamp ∧ l.timestamp ≤ 2147483647

instance (self : avdark_cache_t) : Decidable (Configured self) := by
  unfold Configured; infer_instance

/-- A model whose lines are all invalid with tag 0 and timestamp 0. -/
def AllInvalid (self : avdark_cache_t) : Prop :=
  ∀ l ∈ self.lines, l = ⟨0, 0, 0⟩

instance (self : avdark_cache_t) : Decidable (AllInvalid self) := by
  unfold AllInvalid; infer_instance

/-- Two models with the same geometry and derived values. -/
def SameGeometry (a b : avdark_cache_t) : Prop :=
  a.size = b.size ∧ a.block_size = b.block_size ∧ a.assoc = b.assoc ∧
    a.number_of_sets = b.number_of_sets ∧ a.block_size_log2 = b.block_size_log2 ∧
    a.tag_shift = b.tag_shift

/-- The state of one set `s` after `k` accesses with pairwise different tags,
the first of them with tag `A0` at clock `t0`, none of them a hit: `hist` lists
the tags accessed so far.  Every valid way holds one of these tags with the clock
value of its fill, the first tag goes with the first clock value, no two valid
ways share a timestamp, and while the first fill is still in the set no fill has
been overwritten. -/
def FifoInv (N s A0 : Nat) (t0 : Int) (self : avdark_cache_t) (k : Nat)
    (hist : List Nat) : Prop :=
  (∀ w, w < N → (way_line self s w).valid ≠ 0 →
      (way_line self s w).tag ∈ hist ∧ t0 ≤ way_ts self s w ∧
        way_ts self s w < t0 + (k : Int) ∧
        ((way_line self s w).tag = A0 ↔ way_ts self s w = t0)) ∧
    (∀ w w', w < N → w' < N → (way_line self s w).valid ≠ 0 →
      (way_line self s w').valid ≠ 0 → way_ts self s w = way_ts self s w' → w = w') ∧
    ((∃ w, w < N ∧ (way_line self s w).valid ≠ 0 ∧ way_ts self s w = t0) →
      ∀ j, j < k →
        ∃ w, w < N ∧ (way_line self s w).valid ≠ 0 ∧ way_ts self s w = t0 + (j : Int))

/-- The state of one set `s` after `k` accesses with pairwise different tags from
clock `t0` on, `hist` listing their tags in order: a valid way filled by access
`j` carries the timestamp `t0 + j` and the tag `hist[j]`, an invalid way carries
timestamp 0, no two valid ways share a timestamp, and every access after the
first is still in the set. -/
def LruInv (N s : Nat) (t0 : Int) (self : avdark_cache_t) (k : Nat)
    (hist : List Nat) : Prop :=
  hist.length = k ∧
    (∀ w, w < N → (way_line self s w).valid ≠ 0 →
      ∃ j, j < k ∧ way_ts self s w = t0 + (j : Int) ∧
        hist[j]? = some (way_line self s w).tag) ∧
    (∀ w, w < N → (way_line self s w).valid = 0 → way_ts self s w = 0) ∧
    (∀ w w', w < N → w' < N → (way_line self s w).valid ≠ 0 →
      (way_line self s w').valid ≠ 0 → way_ts self s w = way_ts self s w' → w = w') ∧
    (∀ j, 1 ≤ j → j < k →
      ∃ w, w < N ∧ (way_line self s w).valid ≠ 0 ∧ way_ts self s w = t0 + (j : Int))

/-- No set holds two valid lines with the same tag. -/
def NoDupTags (self : avdark_cache_t) : Prop :=
  ∀ s, s < self.number_of_sets → ∀ w w', w < self.assoc → w' < self.assoc →
    (way_line self s w).valid ≠ 0 → (way_line self s w').valid ≠ 0 →
    (way_line self s w).tag = (way_line self s w').tag → w = w'

/-- The states a model and the process-wide clock can reach: construction with a
valid geometry at any clock value, then accesses, flushes, statistics resets,
resizes (to a valid geometry, or rejected) and advances of the clock caused by
accesses to other models.  The clock is never incremented past the `int` range. -/
inductive Reachable : avdark_cache_t → Int → Prop where
  | construct (junk : Nat → avdc_cache_line) (size block_size assoc : Nat)
      (self : avdark_cache_t) (t : Int) :
      ValidGeometry size block_size assoc →
      avdc_new junk size block_size assoc = some self →
      -2147483648 ≤ t → t ≤ 2147483647 → Reachable self t
  | access (self : avdark_cache_t) (t : Int) (pa : Nat) (ty : avdc_access_type_t) :
      Reachable self t → t < 2147483647 →
      Reachable (avdc_access self t pa ty).1 (avdc_access self t pa ty).2
  | flush (self : avdark_cache_t) (t : Int) :
      Reachable self t → Reachable (avdc_flush_cache self) t
  | reset (self : avdark_cache_t) (t : Int) :
      Reachable self t → Reachable (avdc_reset_statistics self) t
  | resize (junk : Nat → avdc_cache_line) (size block_size assoc : Nat)
      (self : avdark_cache_t) (t : Int) :
      Reachable self t → ValidGeometry size block_size assoc →
      Reachable (avdc_resize junk self size block_size assoc).2 t
  | resize_rejected (junk : Nat → avdc_cache_line) (size block_size assoc : Nat)
      (self : avdark_cache_t) (t : Int) :
      Reachable self t → (avdc_resize junk self size block_size assoc).1 = 0 →
      Reachable (avdc_resize junk self size block_size assoc).2 t
  | tick (self : avdark_cache_t) (t : Int) :
      Reachable self t → t < 2147483647 → Reachable self (t + 1)

/-! ## Concrete models used in the examples -/

/-- Some contents for newly allocated lines: valid lines with tag `i` and
timestamp 7, to show that the flush in `avdc_resize` overwrites them. -/
def junk_lines : Nat → avdc_cache_line :=
  fun i => ⟨i, 1, 7⟩

/-- The freshly constructed cache of the example in the specification: size 64,
block size 16, associativity 2. -/
def example_cache : avdark_cache_t :=
  (avdc_resize junk_lines zeroed 64 16 2).2

/-- A read access to the given address. -/
def rd (pa : Nat) : Nat × avdc_access_type_t :=
  (pa, .AVDC_READ)

/-- A write access to the given address. -/
def wr (pa : Nat) : Nat × avdc_access_type_t :=
  (pa, .AVDC_WRITE)

/-! ## Tallies of a trace -/

/-- The number of accesses of the given type in a trace. -/
def count_accesses (ty : avdc_access_type_t) (trace : List (Nat × avdc_access_type_t)) : Nat :=
  (trace.filter (fun a => decide (a.2 = ty))).length

/-- The number of accesses of the given type in a trace that missed, given the
miss flag of each access. -/
def count_misses (ty : avdc_access_type_t) (trace : List (Nat × avdc_access_type_t))
    (flags : List Bool) : Nat :=
  ((trace.zip flags).filter (fun p => decide (p.1.2 = ty) && p.2)).length

/-! ## A single model driven from clock 0 -/

/-- The states a single model and the clock reach when the model is constructed
with a valid geometry at clock 0 and nothing but its own calls follow: accesses
(which never increment the clock past the `int` range), flushes, statistics
resets and resizes (to a valid geometry, or rejected). -/
inductive SingleReachable : avdark_cache_t → Int → Prop where
  | construct (junk : Nat → avdc_cache_line) (size block_size assoc : Nat)
      (self : avdark_cache_t) :
      ValidGeometry size block_size assoc →
      avdc_new junk size block_size assoc = some self → SingleReachable self 0
  | access (self : avdark_cache_t) (t : Int) (pa : Nat) (ty : avdc_access_type_t) :
      SingleReachable self t → t < 2147483647 →
      SingleReachable (avdc_access self t pa ty).1 (avdc_access self t pa ty).2
  | flush (self : avdark_cache_t) (t : Int) :
      SingleReachable self t → SingleReachable (avdc_flush_cache self) t
  | reset (self : avdark_cache_t) (t : Int) :
      SingleReachable self t → SingleReachable (avdc_reset_statistics self) t
  | resize (junk : Nat → avdc_cache_line) (size block_size assoc : Nat)
      (self : avdark_cache_t) (t : Int) :
      SingleReachable self t → ValidGeometry size block_size assoc →
      SingleReachable (avdc_resize junk self size block_size assoc).2 t
  | resize_rejected (junk : Nat → avdc_cache_line) (size block_size assoc : Nat)
      (self : avdark_cache_t) (t : Int) :
      SingleReachable self t → (avdc_resize junk self size block_size assoc).1 = 0 →
      SingleReachable (avdc_resize junk self size block_size assoc).2 t

/-- The timestamps of the valid lines lie in `[0, t)` and are pairwise
different. -/
def StampsDistinct (self : avdark_cache_t) (t : Int) : Prop :=
  (∀ i, i < self.lines.length → (line_at self i).valid ≠ 0 →
      0 ≤ (line_at self i).timestamp ∧ (line_at self i).timestamp < t) ∧
    ∀ i j, i < self.lines.length → j < self.lines.length →
      (line_at self i).valid ≠ 0 → (line_at self j).valid ≠ 0 →
      (line_at self i).timestamp = (line_at self j).timestamp → i = j

/-! ## Two models in one process -/

/-- Two models `A` and `B` driven in one process from the given clock.  Each event
is an access, to `A` when its first component is true and to `B` otherwise; both
models use the one process-wide `timestamp`.  The result is the final `A`, the
final `B`, the final clock and the miss flag of each access to `B`. -/
def run_two : avdark_cache_t → avdark_cache_t → Int →
    List (Bool × Nat × avdc_access_type_t) →
    avdark_cache_t × avdark_cache_t × Int × List Bool
  | A, B, timestamp, [] => (A, B, timestamp, [])
  | A, B, timestamp, (true, pa, ty) :: rest =>
    run_two (avdc_access A timestamp pa ty).1 B (avdc_access A timestamp pa ty).2 rest
  | A, B, timestamp, (false, pa, ty) :: rest =>
    let r := run_two A (avdc_access B timestamp pa ty).1 (avdc_access B timestamp pa ty).2 rest
    (r.1, r.2.1, r.2.2.1, only_misses B pa :: r.2.2.2)

/-- The accesses to `B` among the events, in order. -/
def accesses_of_B (events : List (Bool × Nat × avdc_access_type_t)) :
    List (Nat × avdc_access_type_t) :=
  events.filterMap (fun e => if e.1 then none else some e.2)

/-- Two models that agree on the geometry, the four counters and the tag and
valid bit of every line. -/
def SameContents (b2 b1 : avdark_cache_t) : Prop :=
  SameGeometry b2 b1 ∧
    b2.stat_data_read = b1.stat_data_read ∧
    b2.stat_data_read_miss = b1.stat_data_read_miss ∧
    b2.stat_data_write = b1.stat_data_write ∧
    b2.stat_data_write_miss = b1.stat_data_write_miss ∧
    b2.lines.length = b1.lines.length ∧
    ∀ i, (line_at b2 i).tag = (line_at b1 i).tag ∧
      (line_at b2 i).valid = (line_at b1 i).valid

/-- Two line tables whose timestamps are in the same order. -/
def SameOrder (b2 b1 : avdark_cache_t) : Prop :=
  ∀ i j, i < b1.lines.length → j < b1.lines.length →
    ((line_at b2 i).timestamp < (line_at b2 j).timestamp ↔
      (line_at b1 i).timestamp < (line_at b1 j).timestamp)

/-- Every timestamp stored in the line table is below `t`. -/
def StampsBelow (b : avdark_cache_t) (t : Int) : Prop :=
  ∀ i, i < b.lines.length → (line_at b i).timestamp < t

instance (b : avdark_cache_t) (t : Int) : Decidable (StampsBelow b t) := by
  unfold StampsBelow; infer_instance

/-! ## Powers of two -/

theorem pow2_of_and_pred (v : Nat) : 0 < v → v &&& (v - 1) = 0 → ∃ k, v = 2 ^ k := by
  induction v using Nat.strong_induction_on with
  | _ v ih =>
    intro hpos h
    have h2 : v / 2 &&& (v - 1) / 2 = 0 := by
      rw [← Nat.and_div_two, h]
    rcases Nat.mod_two_eq_zero_or_one v with hm | hm
    · have e : (v - 1) / 2 = v / 2 - 1 := by omega
      rw [e] at h2
      obtain ⟨k, hk⟩ := ih (v / 2) (by omega) (by omega) h2
      refine ⟨k + 1, ?_⟩
      rw [pow_succ, ← hk]
      omega
    · have e : (v - 1) / 2 = v / 2 := by omega
      rw [e, Nat.and_self] at h2
      exact ⟨0, by omega⟩

theorem and_pred_pow2 (k : Nat) : 2 ^ k &&& (2 ^ k - 1) = 0 := by
  rw [Nat.and_pow_two_sub_one_eq_mod, Nat.mod_self]

theorem wrap_pred (v : Nat) (hpos : 0 < v) (hv : v < 2 ^ 64) :
    (v + 2 ^ 64 - 1) % 2 ^ 64 = v - 1 := by
  omega

theorem is_power_of_two_pos {v : Nat} (h : is_power_of_two v = true) : 0 < v := by
  unfold is_power_of_two at h
  simp only [Bool.and_eq_true, decide_eq_true_eq] at h
  exact h.2

theorem is_power_of_two_iff (v : Nat) (hv : v < 2 ^ 64) :
    is_power_of_two v = true ↔ ∃ k, k < 64 ∧ v = 2 ^ k := by
  constructor
  · intro h
    have hpos := is_power_of_two_pos h
    unfold is_power_of_two at h
    simp only [Bool.and_eq_true, beq_iff_eq, decide_eq_true_eq] at h
    rw [wrap_pred v hpos hv] at h
    obtain ⟨k, hk⟩ := pow2_of_and_pred v hpos h.1
    refine ⟨k, ?_, hk⟩
    rw [hk] at hv
    exact (Nat.pow_lt_pow_iff_right (by norm_num)).1 hv
  · rintro ⟨k, _, rfl⟩
    have hpos : 0 < 2 ^ k := Nat.two_pow_pos k
    unfold is_power_of_two
    simp only [Bool.and_eq_true, beq_iff_eq, decide_eq_true_eq]
    rw [wrap_pred _ hpos hv]
    exact ⟨and_pred_pow2 k, hpos⟩

/-! ## The line table and the lookup -/

theorem line_at_set (self : avdark_cache_t) (p : Nat) (l : avdc_cache_line) (i : Nat) :
    line_at { self with lines := self.lines.set p l } i =
      if i = p ∧ p < self.lines.length then l else line_at self i := by
  unfold line_at
  simp only [List.getD_eq_getElem?_getD, List.getElem?_set]
  by_cases h : p = i
  · subst h
    by_cases hp : p < self.lines.length
    · simp [hp]
    · have hn : self.lines[p]? = none := List.getElem?_eq_none (Nat.le_of_not_lt hp)
      simp [hp, hn]
  · have h' : ¬ i = p := fun e => h e.symm
    simp [h, h']

theorem all_misses_iff (hits : List Int) (N : Nat) :
    all_misses hits N = true ↔ ∀ i, i < N → hits.getD i 0 ≠ 1 := by
  unfold all_misses
  induction N with
  | zero => simp
  | succ N ih =>
    rw [List.range_succ, List.foldl_append]
    simp only [List.foldl_cons, List.foldl_nil]
    by_cases h : hits.getD N 0 = 1
    · simp only [h, if_true]
      constructor
      · intro hf; exact absurd hf (by simp)
      · intro hall; exact absurd h (hall N (Nat.lt_succ_self N))
    · simp only [h, if_false]
      rw [ih]
      constructor
      · intro hall i hi
        rcases Nat.lt_succ_iff_lt_or_eq.1 hi with hlt | heq
        · exact hall i hlt
        · rw [heq]; exact h
      · intro hall i hi
        exact hall i (Nat.lt_succ_of_lt hi)

theorem check_hits_loop_getD (self : avdark_cache_t) (tag : Nat) :
    ∀ (k idx i : Nat), i < k →
      (check_hits_loop self tag k idx).getD i 0 =
        if (line_at self (idx + i * self.number_of_sets)).valid ≠ 0 ∧
            (line_at self (idx + i * self.number_of_sets)).tag = tag then 1 else 0 := by
  intro k
  induction k with
  | zero => intro idx i hi; exact absurd hi (Nat.not_lt_zero i)
  | succ k ih =>
    intro idx i hi
    cases i with
    | zero => simp [check_hits_loop]
    | succ i =>
      have e : idx + (i + 1) * self.number_of_sets =
          idx + self.number_of_sets + i * self.number_of_sets := by
        rw [Nat.succ_mul]; omega
      simp only [check_hits_loop, List.getD_cons_succ]
      rw [ih (idx + self.number_of_sets) i (Nat.lt_of_succ_lt_succ hi), e]

theorem check_hits_loop_length (self : avdark_cache_t) (tag : Nat) :
    ∀ (k idx : Nat), (check_hits_loop self tag k idx).length = k := by
  intro k
  induction k with
  | zero => intro idx; rfl
  | succ k ih => intro idx; simp [check_hits_loop, ih]

theorem only_misses_iff (self : avdark_cache_t) (pa : Nat) :
    only_misses self pa = true ↔
      ∀ w, w < self.assoc →
        ¬ way_hits self (index_from_pa self pa) (tag_from_pa self pa) w := by
  unfold only_misses check_hits_in_sets way_hits way_line
  rw [all_misses_iff]
  constructor
  · intro h w hw hhit
    have := h w hw
    rw [check_hits_loop_getD self _ _ _ w hw, if_pos hhit] at this
    exact this rfl
  · intro h w hw
    rw [check_hits_loop_getD self _ _ _ w hw, if_neg (h w hw)]
    decide

/-! ## The victim selection -/

theorem way_index_lt_iff {s n : Nat} (hs : s < n) (w N : Nat) :
    s + w * n < N * n ↔ w < N := by
  constructor
  · intro h
    by_contra hc
    have : N * n ≤ w * n := Nat.mul_le_mul_right n (Nat.le_of_not_lt hc)
    omega
  · intro h
    have : (w + 1) * n ≤ N * n := Nat.mul_le_mul_right n h
    rw [Nat.succ_mul] at this
    omega

theorem way_index_inj {s n : Nat} (hn : 0 < n) {w w' : Nat}
    (h : s + w * n = s + w' * n) : w = w' := by
  have : w * n = w' * n := by omega
  exact Nat.eq_of_mul_eq_mul_right hn this

/-- The scan of `lru` from way `w0` on: either no way from `w0` on is below
`smallest` and the carried `cacheline` is returned, or the result is the first
way from `w0` on that holds the least timestamp, which is below `smallest`. -/
theorem lru_loop_spec (self : avdark_cache_t) (s N : Nat)
    (hs : s < self.number_of_sets) :
    ∀ (fuel w0 : Nat) (smallest cacheline : Int), w0 ≤ N → N ≤ fuel + w0 →
      (lru_loop self (N * self.number_of_sets) fuel (s + w0 * self.number_of_sets)
          smallest cacheline = cacheline ∧
        ∀ w, w0 ≤ w → w < N → smallest ≤ way_ts self s w) ∨
      (∃ w, w0 ≤ w ∧ w < N ∧
        lru_loop self (N * self.number_of_sets) fuel (s + w0 * self.number_of_sets)
          smallest cacheline = ((s + w * self.number_of_sets : Nat) : Int) ∧
        way_ts self s w < smallest ∧
        (∀ w', w0 ≤ w' → w' < N → way_ts self s w ≤ way_ts self s w') ∧
        (∀ w', w0 ≤ w' → w' < w → way_ts self s w < way_ts self s w')) := by
  intro fuel
  induction fuel with
  | zero =>
    intro w0 smallest cacheline h1 h2
    left
    refine ⟨rfl, ?_⟩
    intro w hw1 hw2
    omega
  | succ fuel ih =>
    intro w0 smallest cacheline h1 h2
    have hstep : s + w0 * self.number_of_sets + self.number_of_sets =
        s + (w0 + 1) * self.number_of_sets := by
      rw [Nat.succ_mul]; omega
    unfold lru_loop
    by_cases hlt : w0 < N
    · rw [if_pos ((way_index_lt_iff hs w0 N).2 hlt), hstep]
      by_cases hts : (line_at self (s + w0 * self.number_of_sets)).timestamp < smallest
      · rw [if_pos hts]
        rcases ih (w0 + 1) (line_at self (s + w0 * self.number_of_sets)).timestamp
            ((s + w0 * self.number_of_sets : Nat) : Int) hlt (by omega) with
          ⟨hr, hall⟩ | ⟨w, hw1, hw2, hr, hw3, hw4, hw5⟩
        · right
          refine ⟨w0, le_refl _, hlt, hr, hts, ?_, ?_⟩
          · intro w' hw1 hw2
            rcases Nat.eq_or_lt_of_le hw1 with heq | hgt
            · rw [← heq]
            · exact hall w' hgt hw2
          · intro w' hw1 hw2
            omega
        · right
          refine ⟨w, by omega, hw2, hr, lt_trans hw3 hts, ?_, ?_⟩
          · intro w' hw1' hw2'
            rcases Nat.eq_or_lt_of_le hw1' with heq | hgt
            · rw [← heq]; exact le_of_lt hw3
            · exact hw4 w' hgt hw2'
          · intro w' hw1' hw2'
            rcases Nat.eq_or_lt_of_le hw1' with heq | hgt
            · rw [← heq]; exact hw3
            · exact hw5 w' hgt hw2'
      · rw [if_neg hts]
        rcases ih (w0 + 1) smallest cacheline hlt (by omega) with
          ⟨hr, hall⟩ | ⟨w, hw1, hw2, hr, hw3, hw4, hw5⟩
        · left
          refine ⟨hr, ?_⟩
          intro w hw1 hw2
          rcases Nat.eq_or_lt_of_le hw1 with heq | hgt
          · rw [← heq]; exact not_lt.1 hts
          · exact hall w hgt hw2
        · right
          refine ⟨w, by omega, hw2, hr, hw3, ?_, ?_⟩
          · intro w' hw1' hw2'
            rcases Nat.eq_or_lt_of_le hw1' with heq | hgt
            · rw [← heq]; exact le_trans (le_of_lt hw3) (not_lt.1 hts)
            · exact hw4 w' hgt hw2'
          · intro w' hw1' hw2'
            rcases Nat.eq_or_lt_of_le hw1' with heq | hgt
            · rw [← heq]; exact lt_of_lt_of_le hw3 (not_lt.1 hts)
            · exact hw5 w' hgt hw2'
    · rw [if_neg (fun h => hlt ((way_index_lt_iff hs w0 N).1 h))]
      left
      refine ⟨rfl, ?_⟩
      intro w hw1 hw2
      omega

/-- The result of `lru` on a set whose timestamps fit an `int`: the flat index of
the first way holding the least timestamp of the set. -/
theorem lru_spec (self : avdark_cache_t) (s : Nat) (hs : s < self.number_of_sets)
    (hN : 0 < self.assoc)
    (hts : ∀ w, w < self.assoc → way_ts self s w < 4294967296) :
    ∃ w, w < self.assoc ∧
      lru self s = ((s + w * self.number_of_sets : Nat) : Int) ∧
      (∀ w', w' < self.assoc → way_ts self s w ≤ way_ts self s w') ∧
      (∀ w', w' < w → way_ts self s w < way_ts self s w') := by
  have h := lru_loop_spec self s self.assoc hs (self.assoc * self.number_of_sets) 0
    4294967296 (line_at self s).timestamp (Nat.zero_le _)
    (by
      have : self.assoc * 1 ≤ self.assoc * self.number_of_sets :=
        Nat.mul_le_mul_left _ (by omega)
      omega)
  simp only [Nat.zero_mul, Nat.add_zero] at h
  rcases h with ⟨_, hall⟩ | ⟨w, _, hw2, hr, _, hw4, hw5⟩
  · exact absurd (hall 0 (le_refl _) hN) (not_le.2 (hts 0 hN))
  · exact ⟨w, hw2, hr, fun w' hw' => hw4 w' (Nat.zero_le _) hw',
      fun w' hw' => hw5 w' (Nat.zero_le _) hw'⟩

/-- The victim of `fill_cache_line`: a way of the addressed set holding the least
timestamp of the set, the first such way. -/
theorem fill_position_spec (self : avdark_cache_t) (s : Nat)
    (hs : s < self.number_of_sets) (hN : 0 < self.assoc)
    (hts : ∀ w, w < self.assoc → way_ts self s w < 4294967296) :
    ∃ w, w < self.assoc ∧
      (fill_position self self.assoc s).toNat = s + w * self.number_of_sets ∧
      (∀ w', w' < self.assoc → way_ts self s w ≤ way_ts self s w') ∧
      (∀ w', w' < w → way_ts self s w < way_ts self s w') := by
  unfold fill_position
  by_cases h1 : self.assoc = 1
  · rw [if_pos h1]
    refine ⟨0, hN, by simp, ?_, ?_⟩
    · intro w' hw'
      have : w' = 0 := by omega
      rw [this]
    · intro w' hw'
      omega
  · rw [if_neg h1]
    obtain ⟨w, hw, hr, h4, h5⟩ := lru_spec self s hs hN hts
    exact ⟨w, hw, by rw [hr]; exact Int.toNat_ofNat _, h4, h5⟩

/-! ## Configured models -/

theorem Configured.assoc_pos {self : avdark_cache_t} (h : Configured self) :
    0 < self.assoc :=
  is_power_of_two_pos h.1.2.2.1

theorem Configured.sets_pos {self : avdark_cache_t} (h : Configured self) :
    0 < self.number_of_sets := by
  rw [h.2.1]
  exact Nat.div_pos h.1.2.2.2.1 h.assoc_pos

theorem Configured.sets_lt {self : avdark_cache_t} (h : Configured self) :
    self.number_of_sets < 2 ^ 31 := by
  rw [h.2.1]
  exact lt_of_le_of_lt (le_trans (Nat.div_le_self _ _) (Nat.div_le_self _ _)) h.1.2.2.2.2

theorem Configured.index_lt {self : avdark_cache_t} (h : Configured self) (pa : Nat) :
    index_from_pa self pa < self.number_of_sets := by
  unfold index_from_pa
  have hp := h.sets_pos
  have hl := h.sets_lt
  rw [wrap_pred _ hp (by omega)]
  have : (pa >>> self.block_size_log2) &&& (self.number_of_sets - 1)
      ≤ self.number_of_sets - 1 := Nat.and_le_right
  omega

theorem line_at_mem_or (self : avdark_cache_t) (i : Nat) :
    line_at self i ∈ self.lines ∨ line_at self i = ⟨0, 0, 0⟩ := by
  unfold line_at
  rw [List.getD_eq_getElem?_getD]
  by_cases hi : i < self.lines.length
  · left
    rw [List.getElem?_eq_getElem hi]
    exact List.getElem_mem hi
  · right
    rw [List.getElem?_eq_none (Nat.le_of_not_lt hi)]
    rfl

theorem Configured.ts_lt {self : avdark_cache_t} (h : Configured self) (i : Nat) :
    (line_at self i).timestamp < 4294967296 := by
  rcases line_at_mem_or self i with hm | he
  · have := (h.2.2.2.2.2 _ hm).2
    omega
  · rw [he]; decide

theorem Configured.way_ts_lt {self : avdark_cache_t} (h : Configured self) (s w : Nat) :
    way_ts self s w < 4294967296 :=
  h.ts_lt _

theorem AllInvalid.line_at_eq {self : avdark_cache_t} (h : AllInvalid self) (i : Nat) :
    line_at self i = ⟨0, 0, 0⟩ := by
  rcases line_at_mem_or self i with hm | he
  · exact h _ hm
  · exact he

/-! ## Flush and resize -/

theorem flush_loop_length (ls : List avdc_cache_line) (m : Nat) :
    (flush_loop ls m).length = ls.length := by
  unfold flush_loop
  induction m with
  | zero => rfl
  | succ m ih =>
    rw [List.range_succ, List.foldl_append]
    simp only [List.foldl_cons, List.foldl_nil, List.length_set]
    exact ih

theorem flush_loop_getElem? (ls : List avdc_cache_line) (m i : Nat) :
    (flush_loop ls m)[i]? =
      if i < m then Option.map (fun _ => (⟨0, 0, 0⟩ : avdc_cache_line)) ls[i]? else ls[i]? := by
  induction m with
  | zero => simp [flush_loop]
  | succ m ih =>
    have e : flush_loop ls (m + 1) = (flush_loop ls m).set m ⟨0, 0, 0⟩ := by
      unfold flush_loop
      rw [List.range_succ, List.foldl_append]
      rfl
    rw [e, List.getElem?_set, flush_loop_length]
    by_cases hmi : m = i
    · subst hmi
      by_cases hl : m < ls.length
      · simp [hl, List.getElem?_eq_getElem hl]
      · simp [hl, List.getElem?_eq_none (Nat.le_of_not_lt hl)]
    · rw [if_neg hmi, ih]
      by_cases hlt : i < m
      · rw [if_pos hlt, if_pos (Nat.lt_succ_of_lt hlt)]
      · rw [if_neg hlt, if_neg (by omega)]

theorem flush_loop_all (ls : List avdc_cache_line) (m : Nat) (hm : ls.length ≤ m) :
    ∀ l ∈ flush_loop ls m, l = ⟨0, 0, 0⟩ := by
  intro l hl
  obtain ⟨i, hi, rfl⟩ := List.getElem_of_mem hl
  have h1 := flush_loop_getElem? ls m i
  rw [flush_loop_length] at hi
  rw [List.getElem?_eq_getElem (by rw [flush_loop_length]; exact hi), if_pos (by omega),
    List.getElem?_eq_getElem hi] at h1
  simpa using h1

/-- For powers of two with `assoc` at most the number of blocks, the number of
blocks is `number_of_sets * assoc`. -/
theorem ValidGeometry.blocks_eq {size block_size assoc : Nat}
    (h : ValidGeometry size block_size assoc) :
    size / block_size / assoc * assoc = size / block_size := by
  obtain ⟨h1, h2, h3, h4, h5⟩ := h
  obtain ⟨a, _, ha⟩ := (is_power_of_two_iff size (by omega)).1 h1
  have hb64 : block_size < 2 ^ 64 := by
    have hpos := is_power_of_two_pos h3
    have h0 : 0 < size / block_size := by omega
    have hle : block_size ≤ size := by
      by_contra hcon
      rw [Nat.div_eq_of_lt (by omega)] at h0
      omega
    omega
  obtain ⟨b, _, hb⟩ := (is_power_of_two_iff block_size hb64).1 h2
  have hc64 : assoc < 2 ^ 64 := by
    have := Nat.div_le_self size block_size
    omega
  obtain ⟨c, _, hc⟩ := (is_power_of_two_iff assoc hc64).1 h3
  subst ha hb hc
  have hpos := Nat.two_pow_pos c
  have hba : b ≤ a := by
    by_contra hcon
    have : 2 ^ a < 2 ^ b := Nat.pow_lt_pow_right (by norm_num) (by omega)
    rw [Nat.div_eq_of_lt this] at h4
    omega
  rw [Nat.pow_div hba (by norm_num)] at h4 ⊢
  have hca : c ≤ a - b := (Nat.pow_le_pow_iff_right (by norm_num)).1 h4
  rw [Nat.pow_div hca (by norm_num), ← pow_add]
  congr 1
  omega

theorem avdc_malloc_length (junk : Nat → avdc_cache_line) (n : Nat) :
    (avdc_malloc junk n).length = n := by
  simp [avdc_malloc]

/-- A resize to a valid geometry returns 1 and leaves a configured model whose
lines are all invalid. -/
theorem avdc_resize_valid (junk : Nat → avdc_cache_line) (self : avdark_cache_t)
    {size block_size assoc : Nat} (h : ValidGeometry size block_size assoc) :
    (avdc_resize junk self size block_size assoc).1 = 1 ∧
      Configured (avdc_resize junk self size block_size assoc).2 ∧
      AllInvalid (avdc_resize junk self size block_size assoc).2 := by
  have hcond : (!is_power_of_two size || !is_power_of_two block_size ||
      !is_power_of_two assoc) = false := by
    simp [h.1, h.2.1, h.2.2.1]
  have hall : AllInvalid (avdc_resize junk self size block_size assoc).2 := by
    unfold avdc_resize
    rw [hcond]
    simp only [Bool.false_eq_true, if_false]
    unfold AllInvalid avdc_flush_cache
    simp only
    apply flush_loop_all
    rw [avdc_malloc_length, h.blocks_eq]
  refine ⟨?_, ?_, hall⟩
  · unfold avdc_resize
    rw [hcond]
    rfl
  · have hts : ∀ l ∈ (avdc_resize junk self size block_size assoc).2.lines,
        -2147483648 ≤ l.timestamp ∧ l.timestamp ≤ 2147483647 := by
      intro l hl
      rw [hall l hl]
      decide
    unfold avdc_resize at hts ⊢
    rw [hcond] at hts ⊢
    simp only [Bool.false_eq_true, if_false] at hts ⊢
    refine ⟨h, rfl, rfl, rfl, ?_, hts⟩
    unfold avdc_flush_cache
    simp only
    rw [flush_loop_length, avdc_malloc_length]

/-- A resize with a parameter that `is_power_of_two` rejects returns 0 and leaves
the model as it was. -/
theorem avdc_resize_rejected (junk : Nat → avdc_cache_line) (self : avdark_cache_t)
    {size block_size assoc : Nat}
    (h : is_power_of_two size = false ∨ is_power_of_two block_size = false ∨
      is_power_of_two assoc = false) :
    avdc_resize junk self size block_size assoc = (0, self) := by
  have hcond : (!is_power_of_two size || !is_power_of_two block_size ||
      !is_power_of_two assoc) = true := by
    rcases h with h | h | h <;> simp [h]
  unfold avdc_resize
  rw [hcond]
  rfl

theorem avdc_flush_cache_configured {self : avdark_cache_t} (h : Configured self) :
    Configured (avdc_flush_cache self) ∧ AllInvalid (avdc_flush_cache self) := by
  have hall : AllInvalid (avdc_flush_cache self) := by
    unfold AllInvalid avdc_flush_cache
    simp only
    apply flush_loop_all
    rw [h.2.2.2.2.1, h.2.1, h.1.blocks_eq]
  refine ⟨⟨h.1, h.2.1, h.2.2.1, h.2.2.2.1, ?_, ?_⟩, hall⟩
  · unfold avdc_flush_cache
    simp only
    rw [flush_loop_length]
    exact h.2.2.2.2.1
  · intro l hl
    rw [hall l hl]
    decide

/-! ## The effect of one access -/

theorem record_statistics_lines (self : avdark_cache_t) (ty : avdc_access_type_t)
    (b : Bool) : (record_statistics self ty b).lines = self.lines := by
  cases ty <;> rfl

theorem record_statistics_geometry (self : avdark_cache_t) (ty : avdc_access_type_t)
    (b : Bool) : SameGeometry (record_statistics self ty b) self := by
  cases ty <;> exact ⟨rfl, rfl, rfl, rfl, rfl, rfl⟩

theorem avdc_access_geometry (self : avdark_cache_t) (t : Int) (pa : Nat)
    (ty : avdc_access_type_t) : SameGeometry (avdc_access self t pa ty).1 self := by
  unfold avdc_access
  simp only
  cases ty <;> split <;> exact ⟨rfl, rfl, rfl, rfl, rfl, rfl⟩

theorem avdc_access_lines (self : avdark_cache_t) (t : Int) (pa : Nat)
    (ty : avdc_access_type_t) :
    (avdc_access self t pa ty).1.lines =
      if only_misses self pa = true then
        self.lines.set (fill_position self self.assoc (index_from_pa self pa)).toNat
          ⟨tag_from_pa self pa, 1, t⟩
      else self.lines := by
  unfold avdc_access
  simp only
  rw [record_statistics_lines]
  unfold only_misses
  split <;> rfl

theorem avdc_access_clock (self : avdark_cache_t) (t : Int) (pa : Nat)
    (ty : avdc_access_type_t) : (avdc_access self t pa ty).2 = t + 1 := rfl

theorem SameGeometry.index_eq {a b : avdark_cache_t} (h : SameGeometry a b) (pa : Nat) :
    index_from_pa a pa = index_from_pa b pa := by
  unfold index_from_pa
  rw [h.2.2.2.1, h.2.2.2.2.1]

theorem SameGeometry.tag_eq {a b : avdark_cache_t} (h : SameGeometry a b) (pa : Nat) :
    tag_from_pa a pa = tag_from_pa b pa := by
  unfold tag_from_pa
  rw [h.2.2.2.2.2]

theorem line_at_congr {a b : avdark_cache_t} (h : a.lines = b.lines) (i : Nat) :
    line_at a i = line_at b i := by
  unfold line_at
  rw [h]

/-- An access that hits leaves the line table as it was. -/
theorem avdc_access_hit_lines {self : avdark_cache_t} (t : Int) {pa : Nat}
    (ty : avdc_access_type_t) (h : only_misses self pa = false) :
    (avdc_access self t pa ty).1.lines = self.lines := by
  rw [avdc_access_lines, h]
  rfl

/-- An access that misses in a configured model writes exactly one line, the
victim way of the addressed set: the first way holding the least timestamp. -/
theorem avdc_access_miss_spec {self : avdark_cache_t} (hc : Configured self) (t : Int)
    {pa : Nat} (ty : avdc_access_type_t) (h : only_misses self pa = true) :
    ∃ w, w < self.assoc ∧
      (fill_position self self.assoc (index_from_pa self pa)).toNat =
        index_from_pa self pa + w * self.number_of_sets ∧
      (∀ w', w' < self.assoc →
        way_ts self (index_from_pa self pa) w ≤ way_ts self (index_from_pa self pa) w') ∧
      (∀ w', w' < w →
        way_ts self (index_from_pa self pa) w < way_ts self (index_from_pa self pa) w') ∧
      ∀ i, line_at (avdc_access self t pa ty).1 i =
        if i = index_from_pa self pa + w * self.number_of_sets then
          ⟨tag_from_pa self pa, 1, t⟩
        else line_at self i := by
  obtain ⟨w, hw, hp, h4, h5⟩ := fill_position_spec self (index_from_pa self pa)
    (hc.index_lt pa) hc.assoc_pos (fun w _ => hc.way_ts_lt _ w)
  refine ⟨w, hw, hp, h4, h5, ?_⟩
  intro i
  have hlen : index_from_pa self pa + w * self.number_of_sets < self.lines.length := by
    rw [hc.2.2.2.2.1, Nat.mul_comm self.number_of_sets self.assoc]
    exact (way_index_lt_iff (hc.index_lt pa) w self.assoc).2 hw
  have e := line_at_set self (index_from_pa self pa + w * self.number_of_sets)
    ⟨tag_from_pa self pa, 1, t⟩ i
  have e2 : line_at (avdc_access self t pa ty).1 i =
      line_at { self with
        lines := self.lines.set (index_from_pa self pa + w * self.number_of_sets)
          ⟨tag_from_pa self pa, 1, t⟩ } i :=
    line_at_congr (by rw [avdc_access_lines, if_pos h, hp]) i
  rw [e2, e]
  by_cases hi : i = index_from_pa self pa + w * self.number_of_sets
  · rw [if_pos ⟨hi, hlen⟩, if_pos hi]
  · rw [if_neg (fun hh => hi hh.1), if_neg hi]

theorem avdc_access_configured {self : avdark_cache_t} (hc : Configured self) {t : Int}
    (ht1 : -2147483648 ≤ t) (ht2 : t ≤ 2147483647) (pa : Nat) (ty : avdc_access_type_t) :
    Configured (avdc_access self t pa ty).1 := by
  obtain ⟨g1, g2, g3, g4, g5, g6⟩ := avdc_access_geometry self t pa ty
  unfold Configured
  rw [g1, g2, g3, g4, g5, g6]
  refine ⟨hc.1, hc.2.1, hc.2.2.1, hc.2.2.2.1, ?_, ?_⟩
  · rw [avdc_access_lines]
    split
    · rw [List.length_set]; exact hc.2.2.2.2.1
    · exact hc.2.2.2.2.1
  · intro l hl
    rw [avdc_access_lines] at hl
    split at hl
    · rcases List.mem_or_eq_of_mem_set hl with hm | he
      · exact hc.2.2.2.2.2 l hm
      · rw [he]; exact ⟨ht1, ht2⟩
    · exact hc.2.2.2.2.2 l hl

/-! ## The ways of a set -/

theorem way_line_congr {a b : avdark_cache_t} (hl : a.lines = b.lines)
    (hg : SameGeometry a b) (s w : Nat) : way_line a s w = way_line b s w := by
  unfold way_line
  rw [hg.2.2.2.1]
  exact line_at_congr hl _

theorem AllInvalid.way_line_eq {self : avdark_cache_t} (h : AllInvalid self) (s w : Nat) :
    way_line self s w = ⟨0, 0, 0⟩ :=
  h.line_at_eq _

/-- An access that hits leaves every way of every set as it was. -/
theorem way_line_access_hit {self : avdark_cache_t} (t : Int) {pa : Nat}
    (ty : avdc_access_type_t) (h : only_misses self pa = false) (s w : Nat) :
    way_line (avdc_access self t pa ty).1 s w = way_line self s w :=
  way_line_congr (avdc_access_hit_lines t ty h) (avdc_access_geometry self t pa ty) s w

/-- An access that misses in a configured model replaces the victim way of the
addressed set, the first way holding the least timestamp of that set, and leaves
every other way of every set as it was. -/
theorem way_line_access_miss {self : avdark_cache_t} (hc : Configured self) (t : Int)
    {pa : Nat} (ty : avdc_access_type_t) (h : only_misses self pa = true) :
    ∃ v, v < self.assoc ∧
      (fill_position self self.assoc (index_from_pa self pa)).toNat =
        index_from_pa self pa + v * self.number_of_sets ∧
      (∀ w', w' < self.assoc →
        way_ts self (index_from_pa self pa) v ≤ way_ts self (index_from_pa self pa) w') ∧
      (∀ w', w' < v →
        way_ts self (index_from_pa self pa) v < way_ts self (index_from_pa self pa) w') ∧
      (∀ w, way_line (avdc_access self t pa ty).1 (index_from_pa self pa) w =
        if w = v then ⟨tag_from_pa self pa, 1, t⟩
        else way_line self (index_from_pa self pa) w) ∧
      (∀ s', s' < self.number_of_sets → s' ≠ index_from_pa self pa →
        ∀ w, way_line (avdc_access self t pa ty).1 s' w = way_line self s' w) := by
  obtain ⟨v, hv, hp, h4, h5, hl⟩ := avdc_access_miss_spec hc t ty h
  have hn := (avdc_access_geometry self t pa ty).2.2.2.1
  refine ⟨v, hv, hp, h4, h5, ?_, ?_⟩
  · intro w
    unfold way_line
    rw [hn, hl]
    by_cases hw : w = v
    · rw [hw, if_pos rfl, if_pos rfl]
    · rw [if_neg hw, if_neg (fun e => hw (way_index_inj hc.sets_pos e))]
  · intro s' hs' hne w
    unfold way_line
    rw [hn, hl, if_neg]
    intro e
    have e2 := congrArg (fun x => x % self.number_of_sets) e
    simp only [Nat.add_mul_mod_self_right] at e2
    rw [Nat.mod_eq_of_lt hs', Nat.mod_eq_of_lt (hc.index_lt pa)] at e2
    exact hne e2

/-! ## Filling a set with pairwise different tags -/

/-- The first access to a model whose lines are all invalid misses and leaves
the set in the state `FifoInv` describes for one access. -/
theorem fifo_first {self : avdark_cache_t} (hc : Configured self) (hall : AllInvalid self)
    (pa : Nat) (ty : avdc_access_type_t) (t0 : Int) :
    only_misses self pa = true ∧
      FifoInv self.assoc (index_from_pa self pa) (tag_from_pa self pa) t0
        (avdc_access self t0 pa ty).1 1 [tag_from_pa self pa] := by
  have hm : only_misses self pa = true := by
    rw [only_misses_iff]
    intro w _ hh
    unfold way_hits at hh
    rw [hall.way_line_eq] at hh
    exact hh.1 rfl
  refine ⟨hm, ?_⟩
  obtain ⟨v, hv, _, _, _, hl, _⟩ := way_line_access_miss hc t0 ty hm
  have hval : ∀ w, (way_line (avdc_access self t0 pa ty).1 (index_from_pa self pa) w).valid ≠ 0 →
      w = v := by
    intro w hw
    by_contra hne
    rw [hl, if_neg hne, hall.way_line_eq] at hw
    exact hw rfl
  have hnew : way_line (avdc_access self t0 pa ty).1 (index_from_pa self pa) v =
      ⟨tag_from_pa self pa, 1, t0⟩ := by
    rw [hl, if_pos rfl]
  refine ⟨?_, ?_, ?_⟩
  · intro w _ hw
    have := hval w hw
    subst this
    unfold way_ts
    rw [hnew]
    simp
  · intro w w' _ _ hw hw' _
    rw [hval w hw, hval w' hw']
  · intro _ j hj
    have hj0 : j = 0 := by omega
    subst hj0
    refine ⟨v, hv, ?_, ?_⟩
    · rw [hnew]; exact one_ne_zero
    · unfold way_ts; rw [hnew]; simp

/-- One more access with a new tag to the same set misses and keeps `FifoInv`. -/
theorem fifo_step {self : avdark_cache_t} (hc : Configured self) {s A0 : Nat} {t0 : Int}
    {k : Nat} {hist : List Nat} (hk : 1 ≤ k)
    (hinv : FifoInv self.assoc s A0 t0 self k hist) (hA0 : A0 ∈ hist) {pa : Nat}
    (hidx : index_from_pa self pa = s) (htag : tag_from_pa self pa ∉ hist)
    (ty : avdc_access_type_t) :
    only_misses self pa = true ∧
      FifoInv self.assoc s A0 t0 (avdc_access self (t0 + (k : Int)) pa ty).1 (k + 1)
        (hist ++ [tag_from_pa self pa]) := by
  obtain ⟨i2, i3, i4⟩ := hinv
  have hm : only_misses self pa = true := by
    rw [only_misses_iff, hidx]
    intro w hw hh
    exact htag (hh.2 ▸ (i2 w hw hh.1).1)
  refine ⟨hm, ?_⟩
  obtain ⟨v, hv, _, hmin, _, hl, _⟩ := way_line_access_miss hc (t0 + (k : Int)) ty hm
  rw [hidx] at hl hmin
  have hnew : way_line (avdc_access self (t0 + (k : Int)) pa ty).1 s v =
      ⟨tag_from_pa self pa, 1, t0 + (k : Int)⟩ := by
    rw [hl, if_pos rfl]
  have hold : ∀ w, w ≠ v →
      way_line (avdc_access self (t0 + (k : Int)) pa ty).1 s w = way_line self s w := by
    intro w hw
    rw [hl, if_neg hw]
  have hne0 : tag_from_pa self pa ≠ A0 := fun e => htag (e ▸ hA0)
  refine ⟨?_, ?_, ?_⟩
  · intro w hw hval
    by_cases hwv : w = v
    · subst hwv
      unfold way_ts
      rw [hnew]
      refine ⟨by simp, by simp, by simp, ?_⟩
      simp only
      constructor
      · intro e; exact absurd e hne0
      · intro e; omega
    · unfold way_ts at *
      rw [hold w hwv] at hval ⊢
      obtain ⟨a, b, c, d⟩ := i2 w hw hval
      refine ⟨List.mem_append_left _ a, b, ?_, d⟩
      push_cast
      omega
  · intro w w' hw hw' hval hval' hts
    by_cases hwv : w = v
    · by_cases hwv' : w' = v
      · rw [hwv, hwv']
      · exfalso
        unfold way_ts at *
        rw [hwv, hnew] at hts
        rw [hold w' hwv'] at hval' hts
        have := (i2 w' hw' hval').2.2.1
        simp only at hts
        omega
    · by_cases hwv' : w' = v
      · exfalso
        unfold way_ts at *
        rw [hwv', hnew] at hts
        rw [hold w hwv] at hval hts
        have := (i2 w hw hval).2.2.1
        simp only at hts
        omega
      · unfold way_ts at *
        rw [hold w hwv] at hval hts
        rw [hold w' hwv'] at hval' hts
        exact i3 w w' hw hw' hval hval' hts
  · rintro ⟨w, hw, hval, hts⟩ j hj
    have hwv : w ≠ v := by
      intro e
      unfold way_ts at hts
      rw [e, hnew] at hts
      simp only at hts
      omega
    have hval0 : (way_line self s w).valid ≠ 0 := by rw [← hold w hwv]; exact hval
    have hts0 : way_ts self s w = t0 := by
      unfold way_ts at *
      rw [← hold w hwv]; exact hts
    have hvinv : (way_line self s v).valid = 0 := by
      by_contra hvv
      have h1 := (i2 v hv hvv).2.1
      have h2 := hmin w hw
      rw [hts0] at h2
      exact hwv (i3 w v hw hv hval0 hvv (by rw [hts0]; omega))
    rcases Nat.lt_succ_iff_lt_or_eq.1 hj with hlt | heq
    · obtain ⟨u, hu, huval, huts⟩ := i4 ⟨w, hw, hval0, hts0⟩ j hlt
      have huv : u ≠ v := fun e => huval (e ▸ hvinv)
      refine ⟨u, hu, ?_, ?_⟩
      · rw [hold u huv]; exact huval
      · unfold way_ts at *
        rw [hold u huv]; exact huts
    · refine ⟨v, hv, ?_, ?_⟩
      · rw [hnew]; exact one_ne_zero
      · unfold way_ts
        rw [hnew, heq]

theorem SameGeometry.trans_geometry {a b c : avdark_cache_t} (h1 : SameGeometry a b)
    (h2 : SameGeometry b c) : SameGeometry a c :=
  ⟨h1.1.trans h2.1, h1.2.1.trans h2.2.1, h1.2.2.1.trans h2.2.2.1,
    h1.2.2.2.1.trans h2.2.2.2.1, h1.2.2.2.2.1.trans h2.2.2.2.2.1,
    h1.2.2.2.2.2.trans h2.2.2.2.2.2⟩

theorem SameGeometry.refl_geometry (a : avdark_cache_t) : SameGeometry a a :=
  ⟨rfl, rfl, rfl, rfl, rfl, rfl⟩

theorem run_trace_cons (self : avdark_cache_t) (t : Int) (a : Nat × avdc_access_type_t)
    (rest : List (Nat × avdc_access_type_t)) :
    run_trace self t (a :: rest) =
      ((run_trace (avdc_access self t a.1 a.2).1 (t + 1) rest).1,
        (run_trace (avdc_access self t a.1 a.2).1 (t + 1) rest).2.1,
        only_misses self a.1 :: (run_trace (avdc_access self t a.1 a.2).1 (t + 1) rest).2.2) :=
  rfl

/-- A run of accesses with new, pairwise different tags to the same set: every
access misses and `FifoInv` holds at the end. -/
theorem fifo_run (N s A0 : Nat) (t0 : Int) (ht0 : -2147483648 ≤ t0) :
    ∀ (rest : List (Nat × avdc_access_type_t)) (self : avdark_cache_t) (k : Nat)
      (hist : List Nat),
      Configured self → self.assoc = N → 1 ≤ k → FifoInv N s A0 t0 self k hist →
      A0 ∈ hist → (∀ a ∈ rest, index_from_pa self a.1 = s) →
      (hist ++ rest.map (fun a => tag_from_pa self a.1)).Nodup →
      t0 + (k : Int) + (rest.length : Int) ≤ 2147483647 →
      Configured (run_trace self (t0 + (k : Int)) rest).1 ∧
        SameGeometry (run_trace self (t0 + (k : Int)) rest).1 self ∧
        FifoInv N s A0 t0 (run_trace self (t0 + (k : Int)) rest).1 (k + rest.length)
          (hist ++ rest.map (fun a => tag_from_pa self a.1)) ∧
        (run_trace self (t0 + (k : Int)) rest).2.1 = t0 + (k : Int) + (rest.length : Int) ∧
        (run_trace self (t0 + (k : Int)) rest).2.2 = List.replicate rest.length true := by
  intro rest
  induction rest with
  | nil =>
    intro self k hist hc _ _ hinv _ _ _ _
    refine ⟨hc, SameGeometry.refl_geometry _, ?_, ?_, rfl⟩
    · simpa using hinv
    · simp [run_trace]
  | cons a rest ih =>
    intro self k hist hc hN hk hinv hA0 hidx hnd hbound
    simp only [List.length_cons, Nat.cast_add, Nat.cast_one] at hbound
    have hg := avdc_access_geometry self (t0 + (k : Int)) a.1 a.2
    have htag : tag_from_pa self a.1 ∉ hist := by
      simp only [List.map_cons] at hnd
      have := (List.nodup_cons.1 (List.nodup_middle.1 hnd)).1
      exact fun hh => this (List.mem_append_left _ hh)
    have hinv' : FifoInv self.assoc s A0 t0 self k hist := by rw [hN]; exact hinv
    obtain ⟨hm, hinv1⟩ := fifo_step hc hk hinv' hA0 (hidx a (List.mem_cons_self _ _)) htag a.2
    rw [hN] at hinv1
    have hc1 : Configured (avdc_access self (t0 + (k : Int)) a.1 a.2).1 :=
      avdc_access_configured hc (by omega) (by omega) a.1 a.2
    have hfun : (fun b : Nat × avdc_access_type_t =>
        tag_from_pa (avdc_access self (t0 + (k : Int)) a.1 a.2).1 b.1) =
        (fun b => tag_from_pa self b.1) := by
      funext b
      exact hg.tag_eq b.1
    have hclock : t0 + (k : Int) + 1 = t0 + ((k + 1 : Nat) : Int) := by
      push_cast; ring
    have hres := ih (avdc_access self (t0 + (k : Int)) a.1 a.2).1 (k + 1)
      (hist ++ [tag_from_pa self a.1]) hc1 (hg.2.2.1.trans hN) (by omega) hinv1
      (List.mem_append_left _ hA0)
      (by
        intro b hb
        rw [hg.index_eq]
        exact hidx b (List.mem_cons_of_mem _ hb))
      (by
        rw [hfun]
        simpa [List.append_assoc] using hnd)
      (by push_cast; omega)
    rw [run_trace_cons, hclock]
    obtain ⟨r1, r2, r3, r4, r5⟩ := hres
    rw [hfun] at r3
    refine ⟨r1, r2.trans_geometry hg, ?_, ?_, ?_⟩
    · have e1 : k + (a :: rest).length = k + 1 + rest.length := by
        simp only [List.length_cons]; omega
      have e2 : hist ++ List.map (fun a => tag_from_pa self a.1) (a :: rest) =
          hist ++ [tag_from_pa self a.1] ++ List.map (fun a => tag_from_pa self a.1) rest := by
        simp [List.append_assoc]
      rw [e1, e2]
      exact r3
    · simp only [List.length_cons]
      rw [r4]
      push_cast
      ring
    · simp only [List.length_cons, List.replicate_succ]
      rw [r5, hm]

/-- After `N + 1` such accesses to a set of `N` ways no valid way holds the first
tag any more. -/
theorem fifo_final {N s A0 : Nat} {t0 : Int} {self : avdark_cache_t} {hist : List Nat}
    (hinv : FifoInv N s A0 t0 self (N + 1) hist) :
    ∀ w, w < N → ¬ way_hits self s A0 w := by
  obtain ⟨i2, _, i4⟩ := hinv
  intro w hw hh
  have hts : way_ts self s w = t0 := (i2 w hw hh.1).2.2.2.1 hh.2
  have hall := i4 ⟨w, hw, hh.1, hts⟩
  let f : Nat → Nat := fun j =>
    if h : j < N + 1 then Classical.choose (hall j h) else 0
  have hf : ∀ j, (h : j < N + 1) → f j < N ∧ way_ts self s (f j) = t0 + (j : Int) := by
    intro j h
    have := Classical.choose_spec (hall j h)
    simp only [f, dif_pos h]
    exact ⟨this.1, this.2.2⟩
  have hcard : (Finset.range N).card < (Finset.range (N + 1)).card := by
    simp
  obtain ⟨x, hx, y, hy, hxy, hfxy⟩ :=
    Finset.exists_ne_map_eq_of_card_lt_of_maps_to hcard
      (fun j hj => Finset.mem_range.2 (hf j (Finset.mem_range.1 hj)).1)
  have h1 := (hf x (Finset.mem_range.1 hx)).2
  have h2 := (hf y (Finset.mem_range.1 hy)).2
  rw [hfxy] at h1
  rw [h1] at h2
  apply hxy
  omega

theorem run_trace_append (l1 l2 : List (Nat × avdc_access_type_t)) :
    ∀ (self : avdark_cache_t) (t : Int),
      run_trace self t (l1 ++ l2) =
        ((run_trace (run_trace self t l1).1 (run_trace self t l1).2.1 l2).1,
          (run_trace (run_trace self t l1).1 (run_trace self t l1).2.1 l2).2.1,
          (run_trace self t l1).2.2 ++
            (run_trace (run_trace self t l1).1 (run_trace self t l1).2.1 l2).2.2) := by
  induction l1 with
  | nil => intro self t; rfl
  | cons a l1 ih =>
    intro self t
    rw [List.cons_append, run_trace_cons, run_trace_cons, ih]
    rfl

theorem run_trace_single (self : avdark_cache_t) (t : Int)
    (a : Nat × avdc_access_type_t) :
    (run_trace self t [a]).2.2 = [only_misses self a.1] :=
  rfl

/-- From a configured model whose lines are all invalid, `N + 1` accesses with
pairwise different tags to one set of `N` ways all miss, and afterwards no way of
the set holds the first tag: re-accessing the first address misses. -/
theorem overflow_set_misses {self : avdark_cache_t} (hc : Configured self)
    (hall : AllInvalid self) (t0 : Int) (ht0 : -2147483648 ≤ t0)
    (ht1 : t0 + (self.assoc : Int) + 2 ≤ 2147483647)
    (a0 : Nat × avdc_access_type_t) (rest : List (Nat × avdc_access_type_t))
    (hlen : rest.length = self.assoc)
    (hidx : ∀ a ∈ rest, index_from_pa self a.1 = index_from_pa self a0.1)
    (htags : ((a0 :: rest).map (fun a => tag_from_pa self a.1)).Nodup) :
    (run_trace self t0 (a0 :: rest)).2.2 = List.replicate (self.assoc + 1) true ∧
      only_misses (run_trace self t0 (a0 :: rest)).1 a0.1 = true ∧
      ∀ w, w < self.assoc →
        ¬ way_hits (run_trace self t0 (a0 :: rest)).1 (index_from_pa self a0.1)
          (tag_from_pa self a0.1) w := by
  obtain ⟨hm, hinv⟩ := fifo_first hc hall a0.1 a0.2 t0
  have hg := avdc_access_geometry self t0 a0.1 a0.2
  have hc1 : Configured (avdc_access self t0 a0.1 a0.2).1 :=
    avdc_access_configured hc ht0 (by omega) a0.1 a0.2
  have hfun : (fun b : Nat × avdc_access_type_t =>
      tag_from_pa (avdc_access self t0 a0.1 a0.2).1 b.1) =
      (fun b => tag_from_pa self b.1) := by
    funext b
    exact hg.tag_eq b.1
  have hclock : t0 + 1 = t0 + ((1 : Nat) : Int) := by push_cast; ring
  have hres := fifo_run self.assoc (index_from_pa self a0.1) (tag_from_pa self a0.1) t0 ht0
    rest (avdc_access self t0 a0.1 a0.2).1 1 [tag_from_pa self a0.1] hc1 hg.2.2.1
    (le_refl 1) hinv (List.mem_singleton_self _)
    (by
      intro b hb
      rw [hg.index_eq]
      exact hidx b hb)
    (by
      rw [hfun]
      simpa using htags)
    (by rw [hlen]; push_cast; omega)
  rw [← hclock] at hres
  obtain ⟨_, r2, r3, _, r5⟩ := hres
  rw [hlen, Nat.add_comm 1 self.assoc] at r3
  have hfin := fifo_final r3
  rw [run_trace_cons]
  refine ⟨?_, ?_, hfin⟩
  · simp only
    rw [r5, hm, hlen, List.replicate_succ]
  · simp only
    rw [only_misses_iff, (r2.trans_geometry hg).index_eq, (r2.trans_geometry hg).tag_eq, (r2.trans_geometry hg).2.2.1]
    exact hfin

theorem avdc_new_eq_some {junk : Nat → avdc_cache_line} {size block_size assoc : Nat}
    {self : avdark_cache_t} (h : avdc_new junk size block_size assoc = some self) :
    (avdc_resize junk zeroed size block_size assoc).2 = self := by
  unfold avdc_new at h
  split at h
  · exact absurd h (by simp)
  · exact Option.some.inj h

theorem avdc_resize_valid_assoc (junk : Nat → avdc_cache_line) (self : avdark_cache_t)
    {size block_size assoc : Nat} (h : ValidGeometry size block_size assoc) :
    (avdc_resize junk self size block_size assoc).2.assoc = assoc := by
  have hcond : (!is_power_of_two size || !is_power_of_two block_size ||
      !is_power_of_two assoc) = false := by
    simp [h.1, h.2.1, h.2.2.1]
  unfold avdc_resize
  rw [hcond]
  rfl

/-! ## Repeating an access, and the tags of a set -/

theorem way_hits_congr {a b : avdark_cache_t} (hl : a.lines = b.lines)
    (hg : SameGeometry a b) (s tg w : Nat) : way_hits a s tg w ↔ way_hits b s tg w := by
  unfold way_hits
  rw [way_line_congr hl hg]

theorem only_misses_congr {a b : avdark_cache_t} (hl : a.lines = b.lines)
    (hg : SameGeometry a b) (pa : Nat) : only_misses a pa = only_misses b pa := by
  rw [Bool.eq_iff_iff, only_misses_iff, only_misses_iff, hg.index_eq, hg.tag_eq, hg.2.2.1]
  constructor
  · intro h w hw hh
    exact h w hw ((way_hits_congr hl hg _ _ _).2 hh)
  · intro h w hw hh
    exact h w hw ((way_hits_congr hl hg _ _ _).1 hh)

/-- Right after an access to `pa` in a configured model, the lookup for `pa`
finds a hit. -/
theorem only_misses_after_access {self : avdark_cache_t} (hc : Configured self) (t : Int)
    (pa : Nat) (ty : avdc_access_type_t) :
    only_misses (avdc_access self t pa ty).1 pa = false := by
  have hg := avdc_access_geometry self t pa ty
  cases hm : only_misses self pa with
  | false =>
    rw [only_misses_congr (avdc_access_hit_lines t ty hm) hg, hm]
  | true =>
    obtain ⟨v, hv, _, _, _, hl, _⟩ := way_line_access_miss hc t ty hm
    by_contra hcon
    have hcon' : only_misses (avdc_access self t pa ty).1 pa = true := by
      cases h : only_misses (avdc_access self t pa ty).1 pa with
      | false => exact absurd h hcon
      | true => rfl
    rw [only_misses_iff, hg.index_eq, hg.tag_eq, hg.2.2.1] at hcon'
    apply hcon' v hv
    unfold way_hits
    rw [hl, if_pos rfl]
    exact ⟨one_ne_zero, rfl⟩

/-- An access that hits leaves both miss counters as they were. -/
theorem avdc_access_hit_stats {self : avdark_cache_t} (t : Int) {pa : Nat}
    (ty : avdc_access_type_t) (h : only_misses self pa = false) :
    (avdc_access self t pa ty).1.stat_data_read_miss = self.stat_data_read_miss ∧
      (avdc_access self t pa ty).1.stat_data_write_miss = self.stat_data_write_miss := by
  unfold only_misses at h
  unfold avdc_access
  simp only [h]
  cases ty <;> exact ⟨rfl, rfl⟩

theorem AllInvalid.noDupTags {self : avdark_cache_t} (h : AllInvalid self) :
    NoDupTags self := by
  intro s _ w w' _ _ hv
  rw [h.way_line_eq] at hv
  exact absurd rfl hv

/-- An access to a configured model keeps the tags of the valid lines of every
set pairwise different. -/
theorem NoDupTags.preserved_by_access {self : avdark_cache_t} (hc : Configured self)
    (hnd : NoDupTags self) (t : Int) (pa : Nat) (ty : avdc_access_type_t) :
    NoDupTags (avdc_access self t pa ty).1 := by
  have hg := avdc_access_geometry self t pa ty
  intro s hs w w' hw hw'
  rw [hg.2.2.2.1] at hs
  rw [hg.2.2.1] at hw hw'
  cases hm : only_misses self pa with
  | false =>
    rw [way_line_access_hit t ty hm, way_line_access_hit t ty hm]
    exact hnd s hs w w' hw hw'
  | true =>
    obtain ⟨v, hv, _, _, _, hl, hother⟩ := way_line_access_miss hc t ty hm
    by_cases hsame : s = index_from_pa self pa
    · subst hsame
      have hno := (only_misses_iff self pa).1 hm
      rw [hl, hl]
      by_cases hwv : w = v
      · by_cases hwv' : w' = v
        · intro _ _ _; rw [hwv, hwv']
        · rw [if_pos hwv, if_neg hwv']
          intro _ hval htag
          exact absurd ⟨hval, htag.symm⟩ (hno w' hw')
      · by_cases hwv' : w' = v
        · rw [if_neg hwv, if_pos hwv']
          intro hval _ htag
          exact absurd ⟨hval, htag⟩ (hno w hw)
        · rw [if_neg hwv, if_neg hwv']
          exact hnd _ hs w w' hw hw'
    · rw [hother s hs hsame, hother s hs hsame]
      exact hnd s hs w w' hw hw'

theorem avdc_resize_rejected_state (junk : Nat → avdc_cache_line) (self : avdark_cache_t)
    (size block_size assoc : Nat)
    (h : (avdc_resize junk self size block_size assoc).1 = 0) :
    (avdc_resize junk self size block_size assoc).2 = self := by
  unfold avdc_resize at h ⊢
  split
  · rfl
  · rename_i hcond
    rw [if_neg hcond] at h
    exact absurd h one_ne_zero

/-- Every reachable state is configured, keeps the tags of each set pairwise
different, and has its clock in the `int` range. -/
theorem Reachable.invariant {self : avdark_cache_t} {t : Int} (h : Reachable self t) :
    Configured self ∧ NoDupTags self ∧ -2147483648 ≤ t ∧ t ≤ 2147483647 := by
  induction h with
  | construct junk size block_size assoc self t hg hnew h1 h2 =>
    obtain ⟨_, hc, hall⟩ := avdc_resize_valid junk zeroed hg
    rw [avdc_new_eq_some hnew] at hc hall
    exact ⟨hc, hall.noDupTags, h1, h2⟩
  | access self t pa ty _ hlt ih =>
    obtain ⟨hc, hnd, h1, h2⟩ := ih
    refine ⟨avdc_access_configured hc h1 h2 pa ty, hnd.preserved_by_access hc t pa ty, ?_, ?_⟩
    · rw [avdc_access_clock]; omega
    · rw [avdc_access_clock]; omega
  | flush self t _ ih =>
    obtain ⟨hc, _, h1, h2⟩ := ih
    obtain ⟨hc', hall⟩ := avdc_flush_cache_configured hc
    exact ⟨hc', hall.noDupTags, h1, h2⟩
  | reset self t _ ih =>
    obtain ⟨hc, hnd, h1, h2⟩ := ih
    exact ⟨hc, hnd, h1, h2⟩
  | resize junk size block_size assoc self t _ hg ih =>
    obtain ⟨_, hc, hall⟩ := avdc_resize_valid junk self hg
    exact ⟨hc, hall.noDupTags, ih.2.2.1, ih.2.2.2⟩
  | resize_rejected junk size block_size assoc self t _ hz ih =>
    rw [avdc_resize_rejected_state junk self size block_size assoc hz]
    exact ih
  | tick self t _ hlt ih =>
    obtain ⟨hc, hnd, h1, h2⟩ := ih
    exact ⟨hc, hnd, by omega, by omega⟩

theorem count_one_le_one (l : List Int)
    (h : ∀ i j, i < l.length → j < l.length → l.getD i 0 = 1 → l.getD j 0 = 1 → i = j) :
    l.count 1 ≤ 1 := by
  induction l with
  | nil => simp
  | cons x xs ih =>
    by_cases hx : x = 1
    · have hzero : xs.count 1 = 0 := by
        rw [List.count_eq_zero]
        intro hmem
        obtain ⟨j, hj, hjx⟩ := List.getElem_of_mem hmem
        have := h 0 (j + 1) (by simp) (by simp; omega) (by simp [hx])
          (by simp [List.getElem?_eq_getElem hj, hjx])
        omega
      rw [hx, List.count_cons_self, hzero]
    · rw [List.count_cons_of_ne (fun e => hx e.symm)]
      apply ih
      intro i j hi hj h1 h2
      have := h (i + 1) (j + 1) (by simp; omega) (by simp; omega) (by simpa using h1)
        (by simpa using h2)
      omega

/-- With pairwise different tags in each set, the lookup marks at most one way. -/
theorem NoDupTags.hits_count {self : avdark_cache_t} (hc : Configured self)
    (hnd : NoDupTags self) (pa : Nat) :
    (check_hits_in_sets self (index_from_pa self pa) self.assoc
      (tag_from_pa self pa)).count 1 ≤ 1 := by
  apply count_one_le_one
  unfold check_hits_in_sets
  intro i j hi hj h1 h2
  rw [check_hits_loop_length] at hi hj
  rw [check_hits_loop_getD self _ _ _ i hi] at h1
  rw [check_hits_loop_getD self _ _ _ j hj] at h2
  have hi' : (line_at self (index_from_pa self pa + i * self.number_of_sets)).valid ≠ 0 ∧
      (line_at self (index_from_pa self pa + i * self.number_of_sets)).tag =
        tag_from_pa self pa := by
    by_contra hcon
    rw [if_neg hcon] at h1
    exact absurd h1 (by decide)
  have hj' : (line_at self (index_from_pa self pa + j * self.number_of_sets)).valid ≠ 0 ∧
      (line_at self (index_from_pa self pa + j * self.number_of_sets)).tag =
        tag_from_pa self pa := by
    by_contra hcon
    rw [if_neg hcon] at h2
    exact absurd h2 (by decide)
  exact hnd _ (hc.index_lt pa) i j hi hj hi'.1 hj'.1 (hi'.2.trans hj'.2.symm)

/-! ## The accesses after the first stay in the set -/

theorem lru_first {self : avdark_cache_t} (hc : Configured self) (hall : AllInvalid self)
    (pa : Nat) (ty : avdc_access_type_t) (t0 : Int) :
    LruInv self.assoc (index_from_pa self pa) t0 (avdc_access self t0 pa ty).1 1
      [tag_from_pa self pa] := by
  have hm : only_misses self pa = true := (fifo_first hc hall pa ty t0).1
  obtain ⟨v, hv, _, _, _, hl, _⟩ := way_line_access_miss hc t0 ty hm
  have hval : ∀ w, (way_line (avdc_access self t0 pa ty).1 (index_from_pa self pa) w).valid ≠ 0 →
      w = v := by
    intro w hw
    by_contra hne
    rw [hl, if_neg hne, hall.way_line_eq] at hw
    exact hw rfl
  have hnew : way_line (avdc_access self t0 pa ty).1 (index_from_pa self pa) v =
      ⟨tag_from_pa self pa, 1, t0⟩ := by
    rw [hl, if_pos rfl]
  refine ⟨rfl, ?_, ?_, ?_, ?_⟩
  · intro w _ hw
    have := hval w hw
    subst this
    refine ⟨0, Nat.one_pos, ?_, ?_⟩
    · unfold way_ts; rw [hnew]; simp
    · rw [hnew]; rfl
  · intro w _ hw
    have hne : w ≠ v := by
      intro e
      rw [e, hnew] at hw
      exact one_ne_zero hw
    unfold way_ts
    rw [hl, if_neg hne, hall.way_line_eq]
  · intro w w' _ _ hw hw' _
    rw [hval w hw, hval w' hw']
  · intro j h1 h2
    omega

/-- One more access with a new tag to the same set, while at most `N` accesses
have been made, misses, keeps `LruInv`, and so evicts none of the accesses after
the first. -/
theorem lru_step {self : avdark_cache_t} (hc : Configured self) {s : Nat} {t0 : Int}
    (ht0 : 0 ≤ t0) {k : Nat} {hist : List Nat} (hk : 1 ≤ k) (hkN : k ≤ self.assoc)
    (hinv : LruInv self.assoc s t0 self k hist) {pa : Nat}
    (hidx : index_from_pa self pa = s) (htag : tag_from_pa self pa ∉ hist)
    (ty : avdc_access_type_t) :
    LruInv self.assoc s t0 (avdc_access self (t0 + (k : Int)) pa ty).1 (k + 1)
      (hist ++ [tag_from_pa self pa]) := by
  obtain ⟨k0, k1, k2, k3, k4⟩ := hinv
  have hm : only_misses self pa = true := by
    rw [only_misses_iff, hidx]
    intro w hw hh
    obtain ⟨j, _, _, hj⟩ := k1 w hw hh.1
    rw [hh.2] at hj
    exact htag (List.getElem?_mem hj)
  obtain ⟨v, hv, _, hmin, _, hl, _⟩ := way_line_access_miss hc (t0 + (k : Int)) ty hm
  rw [hidx] at hl hmin
  have hnew : way_line (avdc_access self (t0 + (k : Int)) pa ty).1 s v =
      ⟨tag_from_pa self pa, 1, t0 + (k : Int)⟩ := by
    rw [hl, if_pos rfl]
  have hold : ∀ w, w ≠ v →
      way_line (avdc_access self (t0 + (k : Int)) pa ty).1 s w = way_line self s w := by
    intro w hw
    rw [hl, if_neg hw]
  have hv_ok : (way_line self s v).valid ≠ 0 → way_ts self s v = t0 := by
    intro hvv
    obtain ⟨j, hj, hts, _⟩ := k1 v hv hvv
    by_contra hne
    have hj1 : 1 ≤ j := by
      by_contra hj0
      have : j = 0 := by omega
      rw [this] at hts
      exact hne (by simpa using hts)
    have hallw : ∀ w, w < self.assoc →
        (way_line self s w).valid ≠ 0 ∧ t0 + 1 ≤ way_ts self s w ∧
          way_ts self s w < t0 + (k : Int) := by
      intro w hw
      have hge := hmin w hw
      have hwv : (way_line self s w).valid ≠ 0 := by
        intro hz
        have := k2 w hw hz
        omega
      obtain ⟨j', hj', hts', _⟩ := k1 w hw hwv
      exact ⟨hwv, by omega, by omega⟩
    have hcard := Finset.card_le_card_of_injOn
      (s := Finset.range self.assoc) (t := Finset.Ico 1 k)
      (fun w => (way_ts self s w - t0).toNat)
      (by
        intro w hw
        have := hallw w (Finset.mem_range.1 hw)
        simp only [Finset.mem_Ico]
        omega)
      (by
        intro w hw w' hw' e
        have h1 := hallw w (Finset.mem_range.1 hw)
        have h2 := hallw w' (Finset.mem_range.1 hw')
        simp only at e
        exact k3 w w' (Finset.mem_range.1 hw) (Finset.mem_range.1 hw') h1.1 h2.1
          (by omega))
    simp only [Finset.card_range, Nat.card_Ico] at hcard
    omega
  refine ⟨by simp [k0], ?_, ?_, ?_, ?_⟩
  · intro w hw hval
    by_cases hwv : w = v
    · subst hwv
      refine ⟨k, Nat.lt_succ_self k, ?_, ?_⟩
      · unfold way_ts; rw [hnew]
      · rw [hnew, ← k0]
        exact List.getElem?_concat_length hist _
    · rw [hold w hwv] at hval
      obtain ⟨j, hj, hts, hh⟩ := k1 w hw hval
      refine ⟨j, Nat.lt_succ_of_lt hj, ?_, ?_⟩
      · unfold way_ts at *
        rw [hold w hwv]; exact hts
      · rw [hold w hwv, List.getElem?_append_left (by omega)]
        exact hh
  · intro w hw hval
    have hwv : w ≠ v := by
      intro e
      rw [e, hnew] at hval
      exact one_ne_zero hval
    unfold way_ts at *
    rw [hold w hwv] at hval ⊢
    exact k2 w hw hval
  · intro w w' hw hw' hval hval' hts
    by_cases hwv : w = v
    · by_cases hwv' : w' = v
      · rw [hwv, hwv']
      · exfalso
        unfold way_ts at *
        rw [hwv, hnew] at hts
        rw [hold w' hwv'] at hval' hts
        obtain ⟨j, hj, hj2, _⟩ := k1 w' hw' hval'
        simp only at hts
        omega
    · by_cases hwv' : w' = v
      · exfalso
        unfold way_ts at *
        rw [hwv', hnew] at hts
        rw [hold w hwv] at hval hts
        obtain ⟨j, hj, hj2, _⟩ := k1 w hw hval
        simp only at hts
        omega
      · unfold way_ts at *
        rw [hold w hwv] at hval hts
        rw [hold w' hwv'] at hval' hts
        exact k3 w w' hw hw' hval hval' hts
  · intro j hj1 hj2
    rcases Nat.lt_succ_iff_lt_or_eq.1 hj2 with hlt | heq
    · obtain ⟨u, hu, huval, huts⟩ := k4 j hj1 hlt
      have huv : u ≠ v := by
        intro e
        rw [e] at huval huts
        have := hv_ok huval
        omega
      refine ⟨u, hu, ?_, ?_⟩
      · rw [hold u huv]; exact huval
      · unfold way_ts at *
        rw [hold u huv]; exact huts
    · refine ⟨v, hv, ?_, ?_⟩
      · rw [hnew]; exact one_ne_zero
      · unfold way_ts
        rw [hnew, heq]

theorem lru_run (N s : Nat) (t0 : Int) (ht0 : 0 ≤ t0) :
    ∀ (rest : List (Nat × avdc_access_type_t)) (self : avdark_cache_t) (k : Nat)
      (hist : List Nat),
      Configured self → self.assoc = N → 1 ≤ k → k + rest.length ≤ N + 1 →
      LruInv N s t0 self k hist →
      (∀ a ∈ rest, index_from_pa self a.1 = s) →
      (hist ++ rest.map (fun a => tag_from_pa self a.1)).Nodup →
      t0 + (k : Int) + (rest.length : Int) ≤ 2147483647 →
      LruInv N s t0 (run_trace self (t0 + (k : Int)) rest).1 (k + rest.length)
        (hist ++ rest.map (fun a => tag_from_pa self a.1)) := by
  intro rest
  induction rest with
  | nil =>
    intro self k hist _ _ _ _ hinv _ _ _
    simpa [run_trace] using hinv
  | cons a rest ih =>
    intro self k hist hc hN hk hkN hinv hidx hnd hbound
    simp only [List.length_cons, Nat.cast_add, Nat.cast_one] at hbound
    simp only [List.length_cons] at hkN
    have hg := avdc_access_geometry self (t0 + (k : Int)) a.1 a.2
    have htag : tag_from_pa self a.1 ∉ hist := by
      simp only [List.map_cons] at hnd
      have := (List.nodup_cons.1 (List.nodup_middle.1 hnd)).1
      exact fun hh => this (List.mem_append_left _ hh)
    have hinv' : LruInv self.assoc s t0 self k hist := by rw [hN]; exact hinv
    have hinv1 := lru_step hc ht0 hk (by omega) hinv' (hidx a (List.mem_cons_self _ _))
      htag a.2
    rw [hN] at hinv1
    have hc1 : Configured (avdc_access self (t0 + (k : Int)) a.1 a.2).1 :=
      avdc_access_configured hc (by omega) (by omega) a.1 a.2
    have hfun : (fun b : Nat × avdc_access_type_t =>
        tag_from_pa (avdc_access self (t0 + (k : Int)) a.1 a.2).1 b.1) =
        (fun b => tag_from_pa self b.1) := by
      funext b
      exact hg.tag_eq b.1
    have hclock : t0 + (k : Int) + 1 = t0 + ((k + 1 : Nat) : Int) := by
      push_cast; ring
    have hres := ih (avdc_access self (t0 + (k : Int)) a.1 a.2).1 (k + 1)
      (hist ++ [tag_from_pa self a.1]) hc1 (hg.2.2.1.trans hN) (by omega) (by omega) hinv1
      (by
        intro b hb
        rw [hg.index_eq]
        exact hidx b (List.mem_cons_of_mem _ hb))
      (by
        rw [hfun]
        simpa [List.append_assoc] using hnd)
      (by push_cast; omega)
    rw [run_trace_cons, hclock]
    rw [hfun] at hres
    have e1 : k + (a :: rest).length = k + 1 + rest.length := by
      simp only [List.length_cons]; omega
    have e2 : hist ++ List.map (fun a => tag_from_pa self a.1) (a :: rest) =
        hist ++ [tag_from_pa self a.1] ++ List.map (fun a => tag_from_pa self a.1) rest := by
      simp [List.append_assoc]
    rw [e1, e2]
    exact hres

theorem lru_final {N s : Nat} {t0 : Int} {self : avdark_cache_t} {k : Nat}
    {hist : List Nat} (hinv : LruInv N s t0 self k hist) (j : Nat) (hj1 : 1 ≤ j)
    (hj2 : j < k) (tg : Nat) (htg : hist[j]? = some tg) :
    ∃ w, w < N ∧ way_hits self s tg w := by
  obtain ⟨_, k1, _, _, k4⟩ := hinv
  obtain ⟨w, hw, hval, hts⟩ := k4 j hj1 hj2
  obtain ⟨j', _, hts', hh⟩ := k1 w hw hval
  have : j' = j := by omega
  rw [this, htg] at hh
  exact ⟨w, hw, hval, (Option.some.inj hh).symm⟩

/-- From a configured model whose lines are all invalid and a clock that is not
negative, after `N + 1` accesses with pairwise different tags to one set of `N`
ways every address but the first is still in the set. -/
theorem overflow_set_keeps_rest {self : avdark_cache_t} (hc : Configured self)
    (hall : AllInvalid self) (t0 : Int) (ht0 : 0 ≤ t0)
    (ht1 : t0 + (self.assoc : Int) + 2 ≤ 2147483647)
    (a0 : Nat × avdc_access_type_t) (rest : List (Nat × avdc_access_type_t))
    (hlen : rest.length = self.assoc)
    (hidx : ∀ a ∈ rest, index_from_pa self a.1 = index_from_pa self a0.1)
    (htags : ((a0 :: rest).map (fun a => tag_from_pa self a.1)).Nodup) :
    ∀ a ∈ rest, only_misses (run_trace self t0 (a0 :: rest)).1 a.1 = false := by
  have hinv := lru_first hc hall a0.1 a0.2 t0
  have hg := avdc_access_geometry self t0 a0.1 a0.2
  have hc1 : Configured (avdc_access self t0 a0.1 a0.2).1 :=
    avdc_access_configured hc (by omega) (by omega) a0.1 a0.2
  have hfun : (fun b : Nat × avdc_access_type_t =>
      tag_from_pa (avdc_access self t0 a0.1 a0.2).1 b.1) =
      (fun b => tag_from_pa self b.1) := by
    funext b
    exact hg.tag_eq b.1
  have hclock : t0 + 1 = t0 + ((1 : Nat) : Int) := by push_cast; ring
  have hres := lru_run self.assoc (index_from_pa self a0.1) t0 ht0
    rest (avdc_access self t0 a0.1 a0.2).1 1 [tag_from_pa self a0.1] hc1 hg.2.2.1
    (le_refl 1) (by omega) hinv
    (by
      intro b hb
      rw [hg.index_eq]
      exact hidx b hb)
    (by
      rw [hfun]
      simpa using htags)
    (by rw [hlen]; push_cast; omega)
  rw [← hclock, hfun] at hres
  have hgr := (fifo_run self.assoc (index_from_pa self a0.1) (tag_from_pa self a0.1) t0
    (by omega) rest (avdc_access self t0 a0.1 a0.2).1 1 [tag_from_pa self a0.1] hc1 hg.2.2.1
    (le_refl 1) (fifo_first hc hall a0.1 a0.2 t0).2 (List.mem_singleton_self _)
    (by
      intro b hb
      rw [hg.index_eq]
      exact hidx b hb)
    (by
      rw [hfun]
      simpa using htags)
    (by rw [hlen]; push_cast; omega)).2.1
  rw [← hclock] at hgr
  have hgeo := hgr.trans_geometry hg
  intro a ha
  obtain ⟨i, hi, hia⟩ := List.getElem_of_mem ha
  have hget : ([tag_from_pa self a0.1] ++ rest.map (fun a => tag_from_pa self a.1))[i + 1]? =
      some (tag_from_pa self a.1) := by
    simp [List.getElem?_eq_getElem hi, hia]
  obtain ⟨w, hw, hh⟩ := lru_final hres (i + 1) (by omega) (by omega) _ hget
  rw [run_trace_cons]
  simp only
  cases hcase : only_misses (run_trace (avdc_access self t0 a0.1 a0.2).1 (t0 + 1) rest).1 a.1 with
  | false => rfl
  | true =>
    exfalso
    rw [only_misses_iff, hgeo.index_eq, hgeo.tag_eq, hgeo.2.2.1, hidx a ha] at hcase
    exact hcase w hw hh

/-! ## C1 to C4: the example trace, filling a set, recency on a hit, invalid ways -/

/-- C1: for the freshly constructed cache with size 64, block size 16 and
associativity 2 (two sets) and the clock at 0, the source classifies the accesses
0, 32, 0, 64, 32 as five misses, not as miss, miss, hit, miss, miss: the second
access overwrites way 0 of set 0 (line 0) and leaves the second way (line 2)
invalid, so the third access misses. -/
theorem C1_example_trace_all_misses :
    avdc_new junk_lines 64 16 2 = some example_cache ∧
      example_cache.number_of_sets = 2 ∧
      (run_trace example_cache 0 [rd 0, rd 32, rd 0, rd 64, rd 32]).2.2 =
        [true, true, true, true, true] ∧
      (run_trace example_cache 0 [rd 0, rd 32]).1.lines =
        [⟨1, 1, 1⟩, ⟨0, 0, 0⟩, ⟨0, 0, 0⟩, ⟨0, 0, 0⟩] ∧
      (run_trace example_cache 0 [rd 0, rd 32, rd 0, rd 64, rd 32]).1.stat_data_read_miss
        = 5 := by
  decide

/-- C2: with associativity 2 and the clock at 0, the two addresses 0 and 32 have
different tags and the same set, and re-accessing 0 after them is a miss in the
source, not a hit: the fill for 32 overwrote the line of 0 although the other way
of the set was still invalid. -/
theorem C2_two_way_refill_misses_at_clock_zero :
    example_cache.assoc = 2 ∧ AllInvalid example_cache ∧
      tag_from_pa example_cache 0 ≠ tag_from_pa example_cache 32 ∧
      index_from_pa example_cache 0 = index_from_pa example_cache 32 ∧
      only_misses (run_trace example_cache 0 [rd 0, rd 32]).1 0 = true ∧
      (run_trace example_cache 0 [rd 0, rd 32, rd 0]).2.2 = [true, true, true] ∧
      (run_trace example_cache 0 [rd 0, rd 32, rd 0]).1.stat_data_read_miss = 3 := by
  decide

/-- C3: in the source a hit leaves the timestamp of the matched line as it was.
After address 0 is filled at clock 5, the access to 0 at clock 6 hits and line 0
still carries timestamp 5, not 6; as a result, the trace 0, 32, 0, 64, 32 from
clock 1 evicts address 0 (first filled) instead of address 32 (least recently
used), and its last access hits. -/
theorem C3_hit_keeps_old_timestamp :
    only_misses (avdc_access example_cache 5 0 .AVDC_READ).1 0 = false ∧
      (line_at (avdc_access example_cache 5 0 .AVDC_READ).1 0).timestamp = 5 ∧
      (line_at (avdc_access (avdc_access example_cache 5 0 .AVDC_READ).1 6 0
        .AVDC_READ).1 0).timestamp = 5 ∧
      (run_trace example_cache 1 [rd 0, rd 32, rd 0, rd 64, rd 32]).2.2 =
        [true, true, false, true, false] ∧
      only_misses (run_trace example_cache 1 [rd 0, rd 32, rd 0, rd 64]).1 0 = true := by
  decide

/-- C4: in the source a miss can overwrite a valid line while its set still has
an invalid way.  After the first access (address 0 at clock 0) set 0 holds a
valid line in way 0 (line 0) and an invalid way 1 (line 2); the miss on address
32 picks line 0 as victim, and afterwards line 0 holds the new tag and line 2 is
still invalid. -/
theorem C4_valid_line_evicted_before_invalid_way :
    (line_at (avdc_access example_cache 0 0 .AVDC_READ).1 0).valid = 1 ∧
      (line_at (avdc_access example_cache 0 0 .AVDC_READ).1 2).valid = 0 ∧
      index_from_pa (avdc_access example_cache 0 0 .AVDC_READ).1 32 = 0 ∧
      only_misses (avdc_access example_cache 0 0 .AVDC_READ).1 32 = true ∧
      fill_position (avdc_access example_cache 0 0 .AVDC_READ).1 2 0 = 0 ∧
      (avdc_access (avdc_access example_cache 0 0 .AVDC_READ).1 1 32 .AVDC_READ).1.lines =
        [⟨1, 1, 1⟩, ⟨0, 0, 0⟩, ⟨0, 0, 0⟩, ⟨0, 0, 0⟩] := by
  decide

/-! ## C5 to C7: overflowing a set, repeating an access, direct-mapped thrashing -/

/-- C5: from a freshly configured cache of any valid geometry with associativity
`assoc`, at any clock value from 0 on that leaves room for the accesses,
`assoc + 1` accesses with pairwise different tags to one set all miss, and the
re-access of the first address after them misses as well: no way of the set
holds its tag any more, while every other address of the sequence is still in
the set, so the line of the first address is the one that was evicted. -/
theorem C5_overflowing_a_set_evicts_the_first_address
    (junk : Nat → avdc_cache_line) (self0 self : avdark_cache_t)
    (size block_size assoc : Nat) (hg : ValidGeometry size block_size assoc)
    (hself : (avdc_resize junk self0 size block_size assoc).2 = self)
    (t0 : Int) (ht0 : 0 ≤ t0) (ht1 : t0 + (assoc : Int) + 2 ≤ 2147483647)
    (a0 : Nat × avdc_access_type_t) (rest : List (Nat × avdc_access_type_t))
    (hlen : rest.length = assoc)
    (hidx : ∀ a ∈ rest, index_from_pa self a.1 = index_from_pa self a0.1)
    (htags : ((a0 :: rest).map (fun a => tag_from_pa self a.1)).Nodup)
    (ty : avdc_access_type_t) :
    (run_trace self t0 ((a0 :: rest) ++ [(a0.1, ty)])).2.2 =
        List.replicate (assoc + 1) true ++ [true] ∧
      (∀ w, w < assoc →
        ¬ way_hits (run_trace self t0 (a0 :: rest)).1 (index_from_pa self a0.1)
          (tag_from_pa self a0.1) w) ∧
      ∀ a ∈ rest, only_misses (run_trace self t0 (a0 :: rest)).1 a.1 = false := by
  obtain ⟨_, hc, hall⟩ := avdc_resize_valid junk self0 hg
  have hN := avdc_resize_valid_assoc junk self0 hg
  rw [hself] at hc hall hN
  rw [← hN] at ht1 hlen ⊢
  obtain ⟨h1, h2, h3⟩ := overflow_set_misses hc hall t0 (by omega) ht1 a0 rest hlen hidx
    htags
  refine ⟨?_, h3, overflow_set_keeps_rest hc hall t0 ht0 ht1 a0 rest hlen hidx htags⟩
  rw [run_trace_append]
  simp only
  rw [h1, run_trace_single, h2]

theorem C5_overflowing_a_set_evicts_the_first_address_witness :
    (run_trace example_cache 0 ([rd 0, rd 32, wr 64] ++ [(0, .AVDC_WRITE)])).2.2 =
        List.replicate (2 + 1) true ++ [true] ∧
      (∀ w, w < 2 →
        ¬ way_hits (run_trace example_cache 0 [rd 0, rd 32, wr 64]).1
          (index_from_pa example_cache 0) (tag_from_pa example_cache 0) w) ∧
      ∀ a ∈ [rd 32, wr 64],
        only_misses (run_trace example_cache 0 [rd 0, rd 32, wr 64]).1 a.1 = false :=
  C5_overflowing_a_set_evicts_the_first_address junk_lines zeroed example_cache 64 16 2
    (by decide) rfl 0 (by decide) (by decide) (rd 0) [rd 32, wr 64] rfl (by decide)
    (by decide) .AVDC_WRITE

/-- C6: in every validly configured model, for every address and every pair of
access types, the access that immediately follows an access to the same address
is a hit: it increments neither miss counter and leaves the line table (hence
every tag and valid bit) as it was. -/
theorem C6_repeated_access_hits (self : avdark_cache_t) (hc : Configured self) (t : Int)
    (pa : Nat) (ty1 ty2 : avdc_access_type_t) :
    only_misses (avdc_access self t pa ty1).1 pa = false ∧
      (avdc_access (avdc_access self t pa ty1).1 (avdc_access self t pa ty1).2 pa
        ty2).1.stat_data_read_miss = (avdc_access self t pa ty1).1.stat_data_read_miss ∧
      (avdc_access (avdc_access self t pa ty1).1 (avdc_access self t pa ty1).2 pa
        ty2).1.stat_data_write_miss = (avdc_access self t pa ty1).1.stat_data_write_miss ∧
      (avdc_access (avdc_access self t pa ty1).1 (avdc_access self t pa ty1).2 pa
        ty2).1.lines = (avdc_access self t pa ty1).1.lines := by
  have hm := only_misses_after_access hc t pa ty1
  have hs := avdc_access_hit_stats (avdc_access self t pa ty1).2 ty2 hm
  exact ⟨hm, hs.1, hs.2, avdc_access_hit_lines _ ty2 hm⟩

theorem C6_repeated_access_hits_witness :
    only_misses (avdc_access example_cache 3 48 .AVDC_WRITE).1 48 = false ∧
      (avdc_access (avdc_access example_cache 3 48 .AVDC_WRITE).1
        (avdc_access example_cache 3 48 .AVDC_WRITE).2 48
        .AVDC_READ).1.stat_data_read_miss =
        (avdc_access example_cache 3 48 .AVDC_WRITE).1.stat_data_read_miss ∧
      (avdc_access (avdc_access example_cache 3 48 .AVDC_WRITE).1
        (avdc_access example_cache 3 48 .AVDC_WRITE).2 48
        .AVDC_READ).1.stat_data_write_miss =
        (avdc_access example_cache 3 48 .AVDC_WRITE).1.stat_data_write_miss ∧
      (avdc_access (avdc_access example_cache 3 48 .AVDC_WRITE).1
        (avdc_access example_cache 3 48 .AVDC_WRITE).2 48 .AVDC_READ).1.lines =
        (avdc_access example_cache 3 48 .AVDC_WRITE).1.lines :=
  C6_repeated_access_hits example_cache (by decide) 3 48 .AVDC_WRITE .AVDC_READ

/-- C7: for a direct-mapped cache (associativity 1) freshly constructed with any
valid size and block size, and any two addresses `A` and `B` with the same set
index and different tags, the accesses `A`, `B`, `A` are three misses. -/
theorem C7_direct_mapped_thrashing (junk : Nat → avdc_cache_line)
    (size block_size : Nat) (self : avdark_cache_t)
    (hg : ValidGeometry size block_size 1)
    (hnew : avdc_new junk size block_size 1 = some self)
    (t0 : Int) (ht0 : -2147483648 ≤ t0) (ht1 : t0 + 3 ≤ 2147483647)
    (A B : Nat) (ty1 ty2 ty3 : avdc_access_type_t)
    (hidx : index_from_pa self A = index_from_pa self B)
    (htag : tag_from_pa self A ≠ tag_from_pa self B) :
    (run_trace self t0 [(A, ty1), (B, ty2), (A, ty3)]).2.2 = [true, true, true] := by
  obtain ⟨_, hc, hall⟩ := avdc_resize_valid junk zeroed hg
  have hN := avdc_resize_valid_assoc junk zeroed hg
  rw [avdc_new_eq_some hnew] at hc hall hN
  obtain ⟨h1, h2, _⟩ := overflow_set_misses hc hall t0 ht0 (by rw [hN]; push_cast; omega)
    (A, ty1) [(B, ty2)] (by rw [hN]; rfl)
    (by
      intro a ha
      rw [List.mem_singleton.1 ha]
      exact hidx.symm)
    (by simpa using htag)
  have e : [(A, ty1), (B, ty2), (A, ty3)] = [(A, ty1), (B, ty2)] ++ [(A, ty3)] := rfl
  rw [e, run_trace_append]
  simp only
  rw [h1, run_trace_single, h2, hN]
  rfl

theorem C7_direct_mapped_thrashing_witness :
    (run_trace (avdc_resize junk_lines zeroed 64 16 1).2 0
      [(16, .AVDC_READ), (80, .AVDC_WRITE), (16, .AVDC_READ)]).2.2 = [true, true, true] :=
  C7_direct_mapped_thrashing junk_lines 64 16 (avdc_resize junk_lines zeroed 64 16 1).2
    (by decide) (by decide) 0 (by decide) (by decide) 16 80 .AVDC_READ .AVDC_WRITE
    .AVDC_READ (by decide) (by decide)

/-! ## C8: at most one valid line per tag in a set -/

/-- C8: in every state reachable from a construction with a valid geometry by
accesses, flushes, statistics resets and resizes, no set holds two valid lines
with the same tag, and the lookup of `avdc_access` marks at most one way as a
hit for every address. -/
theorem C8_no_duplicate_tags_in_a_set (self : avdark_cache_t) (t : Int)
    (h : Reachable self t) :
    (∀ s, s < self.number_of_sets → ∀ w w', w < self.assoc → w' < self.assoc →
      (way_line self s w).valid ≠ 0 → (way_line self s w').valid ≠ 0 →
      (way_line self s w).tag = (way_line self s w').tag → w = w') ∧
      ∀ pa, (check_hits_in_sets self (index_from_pa self pa) self.assoc
        (tag_from_pa self pa)).count 1 ≤ 1 := by
  obtain ⟨hc, hnd, _, _⟩ := h.invariant
  exact ⟨hnd, fun pa => hnd.hits_count hc pa⟩

theorem C8_no_duplicate_tags_in_a_set_witness :
    (∀ s, s < (avdc_access example_cache 0 32 .AVDC_READ).1.number_of_sets →
      ∀ w w', w < (avdc_access example_cache 0 32 .AVDC_READ).1.assoc →
      w' < (avdc_access example_cache 0 32 .AVDC_READ).1.assoc →
      (way_line (avdc_access example_cache 0 32 .AVDC_READ).1 s w).valid ≠ 0 →
      (way_line (avdc_access example_cache 0 32 .AVDC_READ).1 s w').valid ≠ 0 →
      (way_line (avdc_access example_cache 0 32 .AVDC_READ).1 s w).tag =
        (way_line (avdc_access example_cache 0 32 .AVDC_READ).1 s w').tag → w = w') ∧
      ∀ pa, (check_hits_in_sets (avdc_access example_cache 0 32 .AVDC_READ).1
        (index_from_pa (avdc_access example_cache 0 32 .AVDC_READ).1 pa)
        (avdc_access example_cache 0 32 .AVDC_READ).1.assoc
        (tag_from_pa (avdc_access example_cache 0 32 .AVDC_READ).1 pa)).count 1 ≤ 1 :=
  C8_no_duplicate_tags_in_a_set _ _
    (Reachable.access example_cache 0 32 .AVDC_READ
      (Reachable.construct junk_lines 64 16 2 example_cache 0 (by decide) (by decide)
        (by decide) (by decide))
      (by decide))

/-! ## C9 and C10: what `avdc_resize` rejects -/

/-- C9: the source does not reject an associativity above the number of blocks.
With powers of two throughout, the resize of a configured model to size 16 with
block size 64 (no block at all) and the resize to size 64, block size 16,
associativity 8 both return 1 and overwrite the geometry, leaving
`number_of_sets = 0`; `avdc_new` with size 64, block size 16, associativity 8
yields a model. -/
theorem C9_resize_accepts_assoc_above_block_count :
    Configured example_cache ∧
      1 > 16 / 64 ∧
      (avdc_resize junk_lines example_cache 16 64 1).1 = 1 ∧
      (avdc_resize junk_lines example_cache 16 64 1).2 ≠ example_cache ∧
      (avdc_resize junk_lines example_cache 16 64 1).2.number_of_sets = 0 ∧
      8 > 64 / 16 ∧
      (avdc_resize junk_lines example_cache 64 16 8).1 = 1 ∧
      (avdc_resize junk_lines example_cache 64 16 8).2.assoc = 8 ∧
      (avdc_resize junk_lines example_cache 64 16 8).2.number_of_sets = 0 ∧
      (avdc_new junk_lines 64 16 8).isSome = true := by
  decide

/-- C10: when one of size, block size and associativity is not a power of two
`2 ^ k` with `k < 64` (zero included), `avdc_resize` returns 0 and leaves the
whole model as it was, and `avdc_new` yields no model; on 64-bit values
`is_power_of_two` is true exactly for the powers of two `2 ^ k`, `k < 64`. -/
theorem C10_resize_rejects_non_powers_of_two (junk : Nat → avdc_cache_line)
    (self : avdark_cache_t) (size block_size assoc : Nat)
    (hs : size < 2 ^ 64) (hb : block_size < 2 ^ 64) (ha : assoc < 2 ^ 64)
    (hbad : (¬ ∃ k, k < 64 ∧ size = 2 ^ k) ∨ (¬ ∃ k, k < 64 ∧ block_size = 2 ^ k) ∨
      (¬ ∃ k, k < 64 ∧ assoc = 2 ^ k)) :
    avdc_resize junk self size block_size assoc = (0, self) ∧
      avdc_new junk size block_size assoc = none ∧
      ∀ v, v < 2 ^ 64 → (is_power_of_two v = true ↔ ∃ k, k < 64 ∧ v = 2 ^ k) := by
  have hfalse : ∀ v, v < 2 ^ 64 → (¬ ∃ k, k < 64 ∧ v = 2 ^ k) →
      is_power_of_two v = false := by
    intro v hv hn
    cases h : is_power_of_two v with
    | false => rfl
    | true => exact absurd ((is_power_of_two_iff v hv).1 h) hn
  have hrej : is_power_of_two size = false ∨ is_power_of_two block_size = false ∨
      is_power_of_two assoc = false := by
    rcases hbad with h | h | h
    · exact Or.inl (hfalse _ hs h)
    · exact Or.inr (Or.inl (hfalse _ hb h))
    · exact Or.inr (Or.inr (hfalse _ ha h))
  refine ⟨avdc_resize_rejected junk self hrej, ?_, is_power_of_two_iff⟩
  unfold avdc_new
  rw [avdc_resize_rejected junk zeroed hrej]
  rfl

theorem C10_resize_rejects_non_powers_of_two_witness :
    avdc_resize junk_lines example_cache 64 24 2 = (0, example_cache) ∧
      avdc_new junk_lines 64 24 2 = none ∧
      ∀ v, v < 2 ^ 64 → (is_power_of_two v = true ↔ ∃ k, k < 64 ∧ v = 2 ^ k) :=
  C10_resize_rejects_non_powers_of_two junk_lines example_cache 64 24 2 (by decide)
    (by decide) (by decide) (Or.inr (Or.inl (by decide)))

/-! ## The geometry after a resize -/

theorem log2_int32_loop_pow (k : Nat) :
    ∀ (fuel i : Nat), k < fuel → log2_int32_loop fuel i (2 ^ k) = i + k := by
  induction k with
  | zero =>
    intro fuel i h
    cases fuel with
    | zero => omega
    | succ fuel => simp [log2_int32_loop]
  | succ k ih =>
    intro fuel i h
    cases fuel with
    | zero => omega
    | succ fuel =>
      have e : 2 ^ (k + 1) >>> 1 = 2 ^ k := by
        rw [Nat.shiftRight_eq_div_pow, pow_succ]
        simp
      have hne : ¬ 2 ^ k = 0 := (Nat.two_pow_pos k).ne'
      unfold log2_int32_loop
      rw [e, if_neg hne, ih fuel (i + 1) (by omega)]
      omega

/-- On a power of two below `2 ^ 32` the function `log2_int32` returns the exponent. -/
theorem log2_int32_pow (k : Nat) (hk : k < 32) : log2_int32 (2 ^ k) = k := by
  unfold log2_int32
  have hlt : 2 ^ k < 2 ^ 32 := Nat.pow_lt_pow_right (by norm_num) hk
  rw [Nat.mod_eq_of_lt hlt, log2_int32_loop_pow k 32 0 hk]
  omega

/-- The exponents of a valid geometry. -/
theorem ValidGeometry.geometry_exponents {size block_size assoc : Nat}
    (h : ValidGeometry size block_size assoc) :
    ∃ a b c, size = 2 ^ a ∧ block_size = 2 ^ b ∧ assoc = 2 ^ c ∧ b + c ≤ a ∧ a < 31 := by
  obtain ⟨h1, h2, h3, h4, h5⟩ := h
  obtain ⟨a, _, ha⟩ := (is_power_of_two_iff size (by omega)).1 h1
  have hb64 : block_size < 2 ^ 64 := by
    have hpos := is_power_of_two_pos h3
    have h0 : 0 < size / block_size := by omega
    have hle : block_size ≤ size := by
      by_contra hcon
      rw [Nat.div_eq_of_lt (by omega)] at h0
      omega
    omega
  obtain ⟨b, _, hb⟩ := (is_power_of_two_iff block_size hb64).1 h2
  have hc64 : assoc < 2 ^ 64 := by
    have := Nat.div_le_self size block_size
    omega
  obtain ⟨c, _, hc⟩ := (is_power_of_two_iff assoc hc64).1 h3
  subst ha hb hc
  have hba : b ≤ a := by
    by_contra hcon
    have : 2 ^ a < 2 ^ b := Nat.pow_lt_pow_right (by norm_num) (by omega)
    rw [Nat.div_eq_of_lt this] at h4
    have := Nat.two_pow_pos c
    omega
  rw [Nat.pow_div hba (by norm_num)] at h4
  have hca : c ≤ a - b := (Nat.pow_le_pow_iff_right (by norm_num)).1 h4
  have ha31 : a < 31 := (Nat.pow_lt_pow_iff_right (by norm_num)).1 h5
  exact ⟨a, b, c, rfl, rfl, rfl, by omega, ha31⟩

/-- In a configured model the block size and the number of sets are powers of
two whose exponents are `block_size_log2` and `tag_shift - block_size_log2`, and
the three geometry values multiply to the size. -/
theorem Configured.derived_exponents {self : avdark_cache_t} (h : Configured self) :
    ∃ b m, self.block_size = 2 ^ b ∧ self.number_of_sets = 2 ^ m ∧
      self.block_size_log2 = b ∧ self.tag_shift = b + m ∧ b + m < 31 ∧
      self.number_of_sets * self.assoc * self.block_size = self.size := by
  obtain ⟨a, b, c, ha, hb, hc, hle, ha31⟩ := h.1.geometry_exponents
  have hn : self.number_of_sets = 2 ^ (a - b - c) := by
    rw [h.2.1, ha, hb, hc, Nat.pow_div (by omega) (by norm_num),
      Nat.pow_div (by omega) (by norm_num)]
  have hbl : self.block_size_log2 = b := by
    rw [h.2.2.1, hb, log2_int32_pow b (by omega)]
  refine ⟨b, a - b - c, hb, hn, hbl, ?_, by omega, ?_⟩
  · rw [h.2.2.2.1, hbl, hn, log2_int32_pow _ (by omega)]
  · rw [hn, ha, hb, hc, ← pow_add, ← pow_add]
    congr 1
    omega

theorem avdc_resize_valid_fields (junk : Nat → avdc_cache_line) (self : avdark_cache_t)
    {size block_size assoc : Nat} (h : ValidGeometry size block_size assoc) :
    (avdc_resize junk self size block_size assoc).2.size = size ∧
      (avdc_resize junk self size block_size assoc).2.block_size = block_size ∧
      (avdc_resize junk self size block_size assoc).2.assoc = assoc ∧
      (avdc_resize junk self size block_size assoc).2.stat_data_read = self.stat_data_read ∧
      (avdc_resize junk self size block_size assoc).2.stat_data_read_miss =
        self.stat_data_read_miss ∧
      (avdc_resize junk self size block_size assoc).2.stat_data_write =
        self.stat_data_write ∧
      (avdc_resize junk self size block_size assoc).2.stat_data_write_miss =
        self.stat_data_write_miss := by
  have hcond : (!is_power_of_two size || !is_power_of_two block_size ||
      !is_power_of_two assoc) = false := by
    simp [h.1, h.2.1, h.2.2.1]
  unfold avdc_resize
  rw [hcond]
  exact ⟨rfl, rfl, rfl, rfl, rfl, rfl, rfl⟩

/-- The address decomposition of a configured model in terms of division. -/
theorem Configured.decompose {self : avdark_cache_t} (h : Configured self) (pa : Nat) :
    index_from_pa self pa = (pa / self.block_size) % self.number_of_sets ∧
      tag_from_pa self pa = pa / (self.block_size * self.number_of_sets) ∧
      pa / self.block_size =
        tag_from_pa self pa * self.number_of_sets + index_from_pa self pa := by
  obtain ⟨b, m, hb, hn, hbl, hts, _, _⟩ := h.derived_exponents
  have hidx : index_from_pa self pa = (pa / self.block_size) % self.number_of_sets := by
    unfold index_from_pa
    rw [wrap_pred _ h.sets_pos (by have := h.sets_lt; omega), hbl, hn, hb,
      Nat.and_pow_two_sub_one_eq_mod, Nat.shiftRight_eq_div_pow]
  have htag : tag_from_pa self pa = pa / (self.block_size * self.number_of_sets) := by
    unfold tag_from_pa
    rw [hts, hn, hb, Nat.shiftRight_eq_div_pow, pow_add]
  refine ⟨hidx, htag, ?_⟩
  rw [hidx, htag, ← Nat.div_div_eq_div_mul, Nat.mul_comm]
  exact (Nat.div_add_mod _ _).symm

/-! ## C11 and C12: the stored geometry and the address decomposition -/

/-- C11: for powers of two `size`, `block_size` and `assoc` with `assoc` at most
`size / block_size` (and `size` in the `int` range), `avdc_resize` succeeds and
the stored geometry satisfies `number_of_sets * assoc * block_size = size`, with
`number_of_sets` a power of two that is at least 1. -/
theorem C11_geometry_product (junk : Nat → avdc_cache_line) (self : avdark_cache_t)
    (size block_size assoc : Nat) (hg : ValidGeometry size block_size assoc) :
    (avdc_resize junk self size block_size assoc).1 = 1 ∧
      (avdc_resize junk self size block_size assoc).2.size = size ∧
      (avdc_resize junk self size block_size assoc).2.block_size = block_size ∧
      (avdc_resize junk self size block_size assoc).2.assoc = assoc ∧
      (avdc_resize junk self size block_size assoc).2.number_of_sets *
        (avdc_resize junk self size block_size assoc).2.assoc *
        (avdc_resize junk self size block_size assoc).2.block_size =
        (avdc_resize junk self size block_size assoc).2.size ∧
      (∃ k, (avdc_resize junk self size block_size assoc).2.number_of_sets = 2 ^ k) ∧
      is_power_of_two (avdc_resize junk self size block_size assoc).2.number_of_sets = true ∧
      1 ≤ (avdc_resize junk self size block_size assoc).2.number_of_sets := by
  obtain ⟨h1, hc, _⟩ := avdc_resize_valid junk self hg
  obtain ⟨f1, f2, f3, _⟩ := avdc_resize_valid_fields junk self hg
  obtain ⟨b, m, _, hn, _, _, hbm, hprod⟩ := hc.derived_exponents
  refine ⟨h1, f1, f2, f3, hprod, ⟨m, hn⟩, ?_, hc.sets_pos⟩
  rw [is_power_of_two_iff _ (by have := hc.sets_lt; omega)]
  exact ⟨m, by omega, hn⟩

theorem C11_geometry_product_witness :
    (avdc_resize junk_lines example_cache 1024 32 4).1 = 1 ∧
      (avdc_resize junk_lines example_cache 1024 32 4).2.size = 1024 ∧
      (avdc_resize junk_lines example_cache 1024 32 4).2.block_size = 32 ∧
      (avdc_resize junk_lines example_cache 1024 32 4).2.assoc = 4 ∧
      (avdc_resize junk_lines example_cache 1024 32 4).2.number_of_sets *
        (avdc_resize junk_lines example_cache 1024 32 4).2.assoc *
        (avdc_resize junk_lines example_cache 1024 32 4).2.block_size =
        (avdc_resize junk_lines example_cache 1024 32 4).2.size ∧
      (∃ k, (avdc_resize junk_lines example_cache 1024 32 4).2.number_of_sets = 2 ^ k) ∧
      is_power_of_two (avdc_resize junk_lines example_cache 1024 32 4).2.number_of_sets =
        true ∧
      1 ≤ (avdc_resize junk_lines example_cache 1024 32 4).2.number_of_sets :=
  C11_geometry_product junk_lines example_cache 1024 32 4 (by decide)

/-- C12: after a resize to a valid geometry, `2 ^ block_size_log2 = block_size`
and `2 ^ tag_shift = block_size * number_of_sets` (`log2_int32` returns `k` on
`2 ^ k` for `k < 32`); for every address the set index is below
`number_of_sets` and equals `(pa / block_size) % number_of_sets`, the tag equals
`pa / (block_size * number_of_sets)`, the block number `pa / block_size` is
`tag * number_of_sets + index`, and two addresses get the same tag and set index
exactly when they lie in the same block. -/
theorem C12_address_decomposition (junk : Nat → avdc_cache_line) (self0 self : avdark_cache_t)
    (size block_size assoc : Nat) (hg : ValidGeometry size block_size assoc)
    (hself : (avdc_resize junk self0 size block_size assoc).2 = self) :
    2 ^ self.block_size_log2 = self.block_size ∧
      2 ^ self.tag_shift = self.block_size * self.number_of_sets ∧
      (∀ k, k < 32 → log2_int32 (2 ^ k) = k) ∧
      (∀ pa, index_from_pa self pa < self.number_of_sets ∧
        index_from_pa self pa = (pa / self.block_size) % self.number_of_sets ∧
        tag_from_pa self pa = pa / (self.block_size * self.number_of_sets) ∧
        pa / self.block_size =
          tag_from_pa self pa * self.number_of_sets + index_from_pa self pa) ∧
      ∀ pa1 pa2,
        (tag_from_pa self pa1 = tag_from_pa self pa2 ∧
          index_from_pa self pa1 = index_from_pa self pa2) ↔
        pa1 / self.block_size = pa2 / self.block_size := by
  obtain ⟨_, hc, _⟩ := avdc_resize_valid junk self0 hg
  rw [hself] at hc
  obtain ⟨b, m, hb, hn, hbl, hts, _, _⟩ := hc.derived_exponents
  refine ⟨by rw [hbl, hb], by rw [hts, hb, hn, pow_add], log2_int32_pow, ?_, ?_⟩
  · intro pa
    obtain ⟨d1, d2, d3⟩ := hc.decompose pa
    exact ⟨hc.index_lt pa, d1, d2, d3⟩
  · intro pa1 pa2
    obtain ⟨d1, d2, d3⟩ := hc.decompose pa1
    obtain ⟨e1, e2, e3⟩ := hc.decompose pa2
    constructor
    · rintro ⟨ht, hi⟩
      rw [d3, e3, ht, hi]
    · intro hblock
      constructor
      · rw [d2, e2, ← Nat.div_div_eq_div_mul, ← Nat.div_div_eq_div_mul, hblock]
      · rw [d1, e1, hblock]

theorem C12_address_decomposition_witness :
    2 ^ example_cache.block_size_log2 = example_cache.block_size ∧
      2 ^ example_cache.tag_shift = example_cache.block_size * example_cache.number_of_sets ∧
      (∀ k, k < 32 → log2_int32 (2 ^ k) = k) ∧
      (∀ pa, index_from_pa example_cache pa < example_cache.number_of_sets ∧
        index_from_pa example_cache pa =
          (pa / example_cache.block_size) % example_cache.number_of_sets ∧
        tag_from_pa example_cache pa =
          pa / (example_cache.block_size * example_cache.number_of_sets) ∧
        pa / example_cache.block_size =
          tag_from_pa example_cache pa * example_cache.number_of_sets +
            index_from_pa example_cache pa) ∧
      ∀ pa1 pa2,
        (tag_from_pa example_cache pa1 = tag_from_pa example_cache pa2 ∧
          index_from_pa example_cache pa1 = index_from_pa example_cache pa2) ↔
        pa1 / example_cache.block_size = pa2 / example_cache.block_size :=
  C12_address_decomposition junk_lines zeroed example_cache 64 16 2 (by decide) rfl

/-! ## Statistics -/

/-- What one access does to the four counters. -/
theorem avdc_access_stats (self : avdark_cache_t) (t : Int) (pa : Nat)
    (ty : avdc_access_type_t) :
    (avdc_access self t pa ty).1.stat_data_read =
        self.stat_data_read + (if ty = .AVDC_READ then 1 else 0) ∧
      (avdc_access self t pa ty).1.stat_data_read_miss =
        self.stat_data_read_miss +
          (if ty = .AVDC_READ ∧ only_misses self pa = true then 1 else 0) ∧
      (avdc_access self t pa ty).1.stat_data_write =
        self.stat_data_write + (if ty = .AVDC_WRITE then 1 else 0) ∧
      (avdc_access self t pa ty).1.stat_data_write_miss =
        self.stat_data_write_miss +
          (if ty = .AVDC_WRITE ∧ only_misses self pa = true then 1 else 0) := by
  unfold avdc_access only_misses
  simp only
  cases ty <;>
    cases all_misses (check_hits_in_sets self (index_from_pa self pa) self.assoc
      (tag_from_pa self pa)) self.assoc <;>
    simp [record_statistics, fill_cache_line]

theorem count_accesses_cons (ty : avdc_access_type_t) (a : Nat × avdc_access_type_t)
    (rest : List (Nat × avdc_access_type_t)) :
    count_accesses ty (a :: rest) = (if a.2 = ty then 1 else 0) + count_accesses ty rest := by
  unfold count_accesses
  by_cases h : a.2 = ty
  · simp [List.filter_cons, h]
    omega
  · simp [List.filter_cons, h]

theorem count_misses_cons (ty : avdc_access_type_t) (a : Nat × avdc_access_type_t)
    (rest : List (Nat × avdc_access_type_t)) (f : Bool) (flags : List Bool) :
    count_misses ty (a :: rest) (f :: flags) =
      (if a.2 = ty ∧ f = true then 1 else 0) + count_misses ty rest flags := by
  unfold count_misses
  by_cases h : a.2 = ty
  · cases f
    · simp [List.filter_cons, h]
    · simp [List.filter_cons, h]
      omega
  · simp [List.filter_cons, h]

/-- The counters after a trace are the counters before it plus the tallies of
the trace. -/
theorem run_trace_stats (trace : List (Nat × avdc_access_type_t)) :
    ∀ (self : avdark_cache_t) (t : Int),
      (run_trace self t trace).2.2.length = trace.length ∧
      (run_trace self t trace).1.stat_data_read =
        self.stat_data_read + count_accesses .AVDC_READ trace ∧
      (run_trace self t trace).1.stat_data_read_miss =
        self.stat_data_read_miss +
          count_misses .AVDC_READ trace (run_trace self t trace).2.2 ∧
      (run_trace self t trace).1.stat_data_write =
        self.stat_data_write + count_accesses .AVDC_WRITE trace ∧
      (run_trace self t trace).1.stat_data_write_miss =
        self.stat_data_write_miss +
          count_misses .AVDC_WRITE trace (run_trace self t trace).2.2 := by
  induction trace with
  | nil =>
    intro self t
    simp [run_trace, count_accesses, count_misses]
  | cons a rest ih =>
    intro self t
    obtain ⟨i0, i1, i2, i3, i4⟩ := ih (avdc_access self t a.1 a.2).1 (t + 1)
    obtain ⟨s1, s2, s3, s4⟩ := avdc_access_stats self t a.1 a.2
    rw [run_trace_cons]
    simp only [List.length_cons, count_accesses_cons, count_misses_cons]
    rw [i0, i1, i2, i3, i4, s1, s2, s3, s4]
    refine ⟨rfl, ?_, ?_, ?_, ?_⟩ <;> omega

/-! ## C13: the statistics are exact tallies -/

/-- C13: after any trace the four counters are their values before the trace
plus the exact tallies (reads, reads that missed, writes, writes that missed),
so from zeroed counters they equal the tallies; one access adds one to the total
of its own type, adds one to the miss counter of its own type exactly when it
missed, and leaves the two counters of the other type as they were; it misses
exactly when no way of its set holds a valid line with its tag. -/
theorem C13_statistics_are_exact_tallies (self : avdark_cache_t) (t : Int)
    (trace : List (Nat × avdc_access_type_t)) (pa : Nat) (ty : avdc_access_type_t) :
    ((run_trace self t trace).1.stat_data_read =
        self.stat_data_read + count_accesses .AVDC_READ trace ∧
      (run_trace self t trace).1.stat_data_read_miss =
        self.stat_data_read_miss +
          count_misses .AVDC_READ trace (run_trace self t trace).2.2 ∧
      (run_trace self t trace).1.stat_data_write =
        self.stat_data_write + count_accesses .AVDC_WRITE trace ∧
      (run_trace self t trace).1.stat_data_write_miss =
        self.stat_data_write_miss +
          count_misses .AVDC_WRITE trace (run_trace self t trace).2.2) ∧
      ((run_trace (avdc_reset_statistics self) t trace).1.stat_data_read =
          count_accesses .AVDC_READ trace ∧
        (run_trace (avdc_reset_statistics self) t trace).1.stat_data_read_miss =
          count_misses .AVDC_READ trace
            (run_trace (avdc_reset_statistics self) t trace).2.2 ∧
        (run_trace (avdc_reset_statistics self) t trace).1.stat_data_write =
          count_accesses .AVDC_WRITE trace ∧
        (run_trace (avdc_reset_statistics self) t trace).1.stat_data_write_miss =
          count_misses .AVDC_WRITE trace
            (run_trace (avdc_reset_statistics self) t trace).2.2) ∧
      ((avdc_access self t pa ty).1.stat_data_read =
          self.stat_data_read + (if ty = .AVDC_READ then 1 else 0) ∧
        (avdc_access self t pa ty).1.stat_data_read_miss =
          self.stat_data_read_miss +
            (if ty = .AVDC_READ ∧ only_misses self pa = true then 1 else 0) ∧
        (avdc_access self t pa ty).1.stat_data_write =
          self.stat_data_write + (if ty = .AVDC_WRITE then 1 else 0) ∧
        (avdc_access self t pa ty).1.stat_data_write_miss =
          self.stat_data_write_miss +
            (if ty = .AVDC_WRITE ∧ only_misses self pa = true then 1 else 0)) ∧
      (only_misses self pa = true ↔
        ∀ w, w < self.assoc →
          ¬ way_hits self (index_from_pa self pa) (tag_from_pa self pa) w) := by
  obtain ⟨_, a1, a2, a3, a4⟩ := run_trace_stats trace self t
  obtain ⟨_, b1, b2, b3, b4⟩ := run_trace_stats trace (avdc_reset_statistics self) t
  refine ⟨⟨a1, a2, a3, a4⟩, ⟨?_, ?_, ?_, ?_⟩, avdc_access_stats self t pa ty,
    only_misses_iff self pa⟩
  · rw [b1]; exact Nat.zero_add _
  · rw [b2]; exact Nat.zero_add _
  · rw [b3]; exact Nat.zero_add _
  · rw [b4]; exact Nat.zero_add _

/-! ## Frame properties of access, flush and resize -/

/-- The victim position of `fill_cache_line` as an `int`: the flat index of a way
of the addressed set, the first one holding the least timestamp. -/
theorem fill_position_flat (self : avdark_cache_t) (hc : Configured self) (s : Nat)
    (hs : s < self.number_of_sets) :
    ∃ w, w < self.assoc ∧
      fill_position self self.assoc s = ((s + w * self.number_of_sets : Nat) : Int) ∧
      s + w * self.number_of_sets < self.lines.length ∧
      (∀ w', w' < self.assoc → way_ts self s w ≤ way_ts self s w') ∧
      (∀ w', w' < w → way_ts self s w < way_ts self s w') := by
  have hlen : ∀ w, w < self.assoc → s + w * self.number_of_sets < self.lines.length := by
    intro w hw
    rw [hc.2.2.2.2.1, Nat.mul_comm self.number_of_sets self.assoc]
    exact (way_index_lt_iff hs w self.assoc).2 hw
  unfold fill_position
  by_cases h1 : self.assoc = 1
  · rw [if_pos h1]
    refine ⟨0, hc.assoc_pos, by simp, hlen 0 hc.assoc_pos, ?_, ?_⟩
    · intro w' hw'
      have : w' = 0 := by omega
      rw [this]
    · intro w' hw'
      omega
  · rw [if_neg h1]
    obtain ⟨w, hw, hr, h4, h5⟩ := lru_spec self s hs hc.assoc_pos
      (fun w _ => hc.way_ts_lt s w)
    exact ⟨w, hw, hr, hlen w hw, h4, h5⟩

theorem avdc_flush_cache_lines {self : avdark_cache_t} (h : Configured self) :
    (avdc_flush_cache self).lines =
      List.replicate (self.number_of_sets * self.assoc) ⟨0, 0, 0⟩ := by
  obtain ⟨hc, hall⟩ := avdc_flush_cache_configured h
  rw [List.eq_replicate_iff]
  refine ⟨?_, hall⟩
  unfold avdc_flush_cache
  simp only
  rw [flush_loop_length]
  exact h.2.2.2.2.1

theorem AllInvalid.only_misses_true {self : avdark_cache_t} (h : AllInvalid self) (pa : Nat) :
    only_misses self pa = true := by
  rw [only_misses_iff]
  intro w _ hh
  unfold way_hits at hh
  rw [h.way_line_eq] at hh
  exact hh.1 rfl

/-! ## C15 to C17: what an access, a flush and a resize change -/

/-- C15: an access that misses in a configured model, at a clock value inside
the `int` range that the increment does not overflow, writes exactly one line,
the victim way of the addressed set: that line gets the tag of the address,
`valid = 1` and the clock value of the access as timestamp; every other line of
the table and the geometry stay as they were; every access, hit or miss, at such
a clock value advances the clock by exactly one and leaves it in the `int`
range. -/
theorem C15_miss_writes_only_the_victim (self : avdark_cache_t) (hc : Configured self)
    (t : Int) (ht1 : -2147483648 ≤ t) (ht2 : t < 2147483647) (pa : Nat)
    (ty : avdc_access_type_t) (hm : only_misses self pa = true) :
    (∃ v, v < self.assoc ∧
      fill_position self self.assoc (index_from_pa self pa) =
        ((index_from_pa self pa + v * self.number_of_sets : Nat) : Int) ∧
      index_from_pa self pa + v * self.number_of_sets < self.lines.length ∧
      (avdc_access self t pa ty).1.lines =
        self.lines.set (index_from_pa self pa + v * self.number_of_sets)
          ⟨tag_from_pa self pa, 1, t⟩ ∧
      line_at (avdc_access self t pa ty).1
          (index_from_pa self pa + v * self.number_of_sets) =
        ⟨tag_from_pa self pa, 1, t⟩ ∧
      ∀ i, i ≠ index_from_pa self pa + v * self.number_of_sets →
        line_at (avdc_access self t pa ty).1 i = line_at self i) ∧
      SameGeometry (avdc_access self t pa ty).1 self ∧
      ((avdc_access self t pa ty).2 = t + 1 ∧
        -2147483648 ≤ (avdc_access self t pa ty).2 ∧
        (avdc_access self t pa ty).2 ≤ 2147483647) ∧
      ∀ (self1 : avdark_cache_t) (t1 : Int) (pa1 : Nat) (ty1 : avdc_access_type_t),
        -2147483648 ≤ t1 → t1 < 2147483647 →
        (avdc_access self1 t1 pa1 ty1).2 = t1 + 1 ∧
          -2147483648 ≤ (avdc_access self1 t1 pa1 ty1).2 ∧
          (avdc_access self1 t1 pa1 ty1).2 ≤ 2147483647 := by
  have hclock : ∀ (self1 : avdark_cache_t) (t1 : Int) (pa1 : Nat)
      (ty1 : avdc_access_type_t), -2147483648 ≤ t1 → t1 < 2147483647 →
      (avdc_access self1 t1 pa1 ty1).2 = t1 + 1 ∧
        -2147483648 ≤ (avdc_access self1 t1 pa1 ty1).2 ∧
        (avdc_access self1 t1 pa1 ty1).2 ≤ 2147483647 := by
    intro self1 t1 pa1 ty1 h1 h2
    rw [avdc_access_clock]
    exact ⟨rfl, by omega, by omega⟩
  obtain ⟨v, hv, hp, hlen, _, _⟩ := fill_position_flat self hc (index_from_pa self pa)
    (hc.index_lt pa)
  have hlines : (avdc_access self t pa ty).1.lines =
      self.lines.set (index_from_pa self pa + v * self.number_of_sets)
        ⟨tag_from_pa self pa, 1, t⟩ := by
    rw [avdc_access_lines, if_pos hm, hp, Int.toNat_ofNat]
  have hline : ∀ i, line_at (avdc_access self t pa ty).1 i =
      if i = index_from_pa self pa + v * self.number_of_sets ∧
          index_from_pa self pa + v * self.number_of_sets < self.lines.length then
        ⟨tag_from_pa self pa, 1, t⟩
      else line_at self i := by
    intro i
    rw [← line_at_set self _ _ i]
    exact line_at_congr hlines i
  refine ⟨⟨v, hv, hp, hlen, hlines, ?_, ?_⟩, avdc_access_geometry self t pa ty,
    hclock self t pa ty ht1 ht2, hclock⟩
  · rw [hline, if_pos ⟨rfl, hlen⟩]
  · intro i hi
    rw [hline, if_neg (fun h => hi h.1)]

theorem C15_miss_writes_only_the_victim_witness :
    (∃ v, v < example_cache.assoc ∧
      fill_position example_cache example_cache.assoc (index_from_pa example_cache 48) =
        ((index_from_pa example_cache 48 + v * example_cache.number_of_sets : Nat) : Int) ∧
      index_from_pa example_cache 48 + v * example_cache.number_of_sets <
        example_cache.lines.length ∧
      (avdc_access example_cache 9 48 .AVDC_WRITE).1.lines =
        example_cache.lines.set (index_from_pa example_cache 48 +
          v * example_cache.number_of_sets) ⟨tag_from_pa example_cache 48, 1, 9⟩ ∧
      line_at (avdc_access example_cache 9 48 .AVDC_WRITE).1
          (index_from_pa example_cache 48 + v * example_cache.number_of_sets) =
        ⟨tag_from_pa example_cache 48, 1, 9⟩ ∧
      ∀ i, i ≠ index_from_pa example_cache 48 + v * example_cache.number_of_sets →
        line_at (avdc_access example_cache 9 48 .AVDC_WRITE).1 i =
          line_at example_cache i) ∧
      SameGeometry (avdc_access example_cache 9 48 .AVDC_WRITE).1 example_cache ∧
      ((avdc_access example_cache 9 48 .AVDC_WRITE).2 = 9 + 1 ∧
        -2147483648 ≤ (avdc_access example_cache 9 48 .AVDC_WRITE).2 ∧
        (avdc_access example_cache 9 48 .AVDC_WRITE).2 ≤ 2147483647) ∧
      ∀ (self1 : avdark_cache_t) (t1 : Int) (pa1 : Nat) (ty1 : avdc_access_type_t),
        -2147483648 ≤ t1 → t1 < 2147483647 →
        (avdc_access self1 t1 pa1 ty1).2 = t1 + 1 ∧
          -2147483648 ≤ (avdc_access self1 t1 pa1 ty1).2 ∧
          (avdc_access self1 t1 pa1 ty1).2 ≤ 2147483647 :=
  C15_miss_writes_only_the_victim example_cache (by decide) 9 (by decide) (by decide) 48
    .AVDC_WRITE (by decide)

/-- C16: in a configured model `avdc_flush_cache` leaves a table of
`number_of_sets * assoc` lines that are all invalid with tag 0 and timestamp 0,
and leaves the four counters and every geometry field as they were; the first
access to any address after the flush therefore misses. -/
theorem C16_flush_clears_lines_only (self : avdark_cache_t) (hc : Configured self) :
    (avdc_flush_cache self).lines =
        List.replicate (self.number_of_sets * self.assoc) ⟨0, 0, 0⟩ ∧
      (avdc_flush_cache self).stat_data_read = self.stat_data_read ∧
      (avdc_flush_cache self).stat_data_read_miss = self.stat_data_read_miss ∧
      (avdc_flush_cache self).stat_data_write = self.stat_data_write ∧
      (avdc_flush_cache self).stat_data_write_miss = self.stat_data_write_miss ∧
      SameGeometry (avdc_flush_cache self) self ∧
      ∀ pa, only_misses (avdc_flush_cache self) pa = true :=
  ⟨avdc_flush_cache_lines hc, rfl, rfl, rfl, rfl, ⟨rfl, rfl, rfl, rfl, rfl, rfl⟩,
    fun pa => (avdc_flush_cache_configured hc).2.only_misses_true pa⟩

theorem C16_flush_clears_lines_only_witness :
    (avdc_flush_cache (run_trace example_cache 4 [rd 0, wr 16, rd 32]).1).lines =
        List.replicate ((run_trace example_cache 4 [rd 0, wr 16, rd 32]).1.number_of_sets *
          (run_trace example_cache 4 [rd 0, wr 16, rd 32]).1.assoc) ⟨0, 0, 0⟩ ∧
      (avdc_flush_cache (run_trace example_cache 4 [rd 0, wr 16, rd 32]).1).stat_data_read =
        (run_trace example_cache 4 [rd 0, wr 16, rd 32]).1.stat_data_read ∧
      (avdc_flush_cache (run_trace example_cache 4 [rd 0, wr 16, rd 32]).1).stat_data_read_miss =
        (run_trace example_cache 4 [rd 0, wr 16, rd 32]).1.stat_data_read_miss ∧
      (avdc_flush_cache (run_trace example_cache 4 [rd 0, wr 16, rd 32]).1).stat_data_write =
        (run_trace example_cache 4 [rd 0, wr 16, rd 32]).1.stat_data_write ∧
      (avdc_flush_cache (run_trace example_cache 4 [rd 0, wr 16, rd 32]).1).stat_data_write_miss =
        (run_trace example_cache 4 [rd 0, wr 16, rd 32]).1.stat_data_write_miss ∧
      SameGeometry (avdc_flush_cache (run_trace example_cache 4 [rd 0, wr 16, rd 32]).1)
        (run_trace example_cache 4 [rd 0, wr 16, rd 32]).1 ∧
      ∀ pa, only_misses (avdc_flush_cache (run_trace example_cache 4 [rd 0, wr 16, rd 32]).1)
        pa = true :=
  C16_flush_clears_lines_only (run_trace example_cache 4 [rd 0, wr 16, rd 32]).1 (by decide)

/-- C17: a resize of any model to a valid geometry returns 1, leaves a table of
`(size / block_size / assoc) * assoc` lines that are all invalid with tag 0 and
timestamp 0, whatever the table held before and whatever the new allocation
contains, and leaves the four counters as they were. -/
theorem C17_resize_clears_lines_keeps_statistics (junk : Nat → avdc_cache_line)
    (self : avdark_cache_t) (size block_size assoc : Nat)
    (hg : ValidGeometry size block_size assoc) :
    (avdc_resize junk self size block_size assoc).1 = 1 ∧
      (avdc_resize junk self size block_size assoc).2.lines =
        List.replicate (size / block_size / assoc * assoc) ⟨0, 0, 0⟩ ∧
      (avdc_resize junk self size block_size assoc).2.stat_data_read =
        self.stat_data_read ∧
      (avdc_resize junk self size block_size assoc).2.stat_data_read_miss =
        self.stat_data_read_miss ∧
      (avdc_resize junk self size block_size assoc).2.stat_data_write =
        self.stat_data_write ∧
      (avdc_resize junk self size block_size assoc).2.stat_data_write_miss =
        self.stat_data_write_miss := by
  obtain ⟨h1, hc, hall⟩ := avdc_resize_valid junk self hg
  obtain ⟨f1, f2, f3, f4, f5, f6, f7⟩ := avdc_resize_valid_fields junk self hg
  refine ⟨h1, ?_, f4, f5, f6, f7⟩
  rw [List.eq_replicate_iff]
  refine ⟨?_, hall⟩
  rw [hc.2.2.2.2.1, hc.2.1, f1, f2, f3]

theorem C17_resize_clears_lines_keeps_statistics_witness :
    (avdc_resize junk_lines (run_trace example_cache 4 [rd 0, wr 16, rd 32]).1 128 16 4).1
        = 1 ∧
      (avdc_resize junk_lines (run_trace example_cache 4 [rd 0, wr 16, rd 32]).1
        128 16 4).2.lines = List.replicate (128 / 16 / 4 * 4) ⟨0, 0, 0⟩ ∧
      (avdc_resize junk_lines (run_trace example_cache 4 [rd 0, wr 16, rd 32]).1
        128 16 4).2.stat_data_read =
        (run_trace example_cache 4 [rd 0, wr 16, rd 32]).1.stat_data_read ∧
      (avdc_resize junk_lines (run_trace example_cache 4 [rd 0, wr 16, rd 32]).1
        128 16 4).2.stat_data_read_miss =
        (run_trace example_cache 4 [rd 0, wr 16, rd 32]).1.stat_data_read_miss ∧
      (avdc_resize junk_lines (run_trace example_cache 4 [rd 0, wr 16, rd 32]).1
        128 16 4).2.stat_data_write =
        (run_trace example_cache 4 [rd 0, wr 16, rd 32]).1.stat_data_write ∧
      (avdc_resize junk_lines (run_trace example_cache 4 [rd 0, wr 16, rd 32]).1
        128 16 4).2.stat_data_write_miss =
        (run_trace example_cache 4 [rd 0, wr 16, rd 32]).1.stat_data_write_miss :=
  C17_resize_clears_lines_keeps_statistics junk_lines
    (run_trace example_cache 4 [rd 0, wr 16, rd 32]).1 128 16 4 (by decide)

/-! ## C18 and C19: the result of `lru` and the indices in range -/

/-- C18: in a configured model, for every set index `s` below `number_of_sets`,
`lru` returns the flat index `s + w * number_of_sets` of a way `w < assoc` whose
timestamp is the least of the set, the lowest-numbered such way; when `assoc`
is 1 it returns `s` itself, the position `fill_cache_line` uses in that case. -/
theorem C18_lru_returns_first_least_timestamp (self : avdark_cache_t)
    (hc : Configured self) (s : Nat) (hs : s < self.number_of_sets) :
    (∃ w, w < self.assoc ∧
      lru self s = ((s + w * self.number_of_sets : Nat) : Int) ∧
      (∀ w', w' < self.assoc → way_ts self s w ≤ way_ts self s w') ∧
      (∀ w', w' < w → way_ts self s w < way_ts self s w')) ∧
      (self.assoc = 1 → lru self s = (s : Int) ∧ fill_position self self.assoc s = lru self s) := by
  have h := lru_spec self s hs hc.assoc_pos (fun w _ => hc.way_ts_lt s w)
  refine ⟨h, ?_⟩
  intro h1
  obtain ⟨w, hw, hr, _, _⟩ := h
  have hw0 : w = 0 := by omega
  rw [hw0, Nat.zero_mul, Nat.add_zero] at hr
  refine ⟨hr, ?_⟩
  unfold fill_position
  rw [if_pos h1, hr]

theorem C18_lru_returns_first_least_timestamp_witness :
    (∃ w, w < (run_trace example_cache 4 [rd 0, wr 16, rd 32]).1.assoc ∧
      lru (run_trace example_cache 4 [rd 0, wr 16, rd 32]).1 1 =
        ((1 + w * (run_trace example_cache 4 [rd 0, wr 16, rd 32]).1.number_of_sets : Nat)
          : Int) ∧
      (∀ w', w' < (run_trace example_cache 4 [rd 0, wr 16, rd 32]).1.assoc →
        way_ts (run_trace example_cache 4 [rd 0, wr 16, rd 32]).1 1 w ≤
          way_ts (run_trace example_cache 4 [rd 0, wr 16, rd 32]).1 1 w') ∧
      (∀ w', w' < w →
        way_ts (run_trace example_cache 4 [rd 0, wr 16, rd 32]).1 1 w <
          way_ts (run_trace example_cache 4 [rd 0, wr 16, rd 32]).1 1 w')) ∧
      ((run_trace example_cache 4 [rd 0, wr 16, rd 32]).1.assoc = 1 →
        lru (run_trace example_cache 4 [rd 0, wr 16, rd 32]).1 1 = ((1 : Nat) : Int) ∧
        fill_position (run_trace example_cache 4 [rd 0, wr 16, rd 32]).1
          (run_trace example_cache 4 [rd 0, wr 16, rd 32]).1.assoc 1 =
          lru (run_trace example_cache 4 [rd 0, wr 16, rd 32]).1 1) :=
  C18_lru_returns_first_least_timestamp (run_trace example_cache 4 [rd 0, wr 16, rd 32]).1
    (by decide) 1 (by decide)

/-- C19: in a configured model every line index the lookup of `avdc_access`
reads (`index + w * number_of_sets` for `w < assoc`), the victim position the
fill writes, and every index `avdc_flush_cache` writes (below
`size / block_size`) is below the length of the line table, and the loop bound
`size / block_size` of the flush equals that length,
`number_of_sets * assoc`. -/
theorem C19_line_indices_in_range (self : avdark_cache_t) (hc : Configured self) :
    (∀ pa w, w < self.assoc →
      index_from_pa self pa + w * self.number_of_sets < self.lines.length) ∧
      (∀ pa, 0 ≤ fill_position self self.assoc (index_from_pa self pa) ∧
        (fill_position self self.assoc (index_from_pa self pa)).toNat <
          self.lines.length) ∧
      (∀ i, i < self.size / self.block_size → i < self.lines.length) ∧
      self.size / self.block_size = self.lines.length ∧
      self.lines.length = self.number_of_sets * self.assoc := by
  have hblocks : self.size / self.block_size = self.lines.length := by
    rw [hc.2.2.2.2.1, hc.2.1, hc.1.blocks_eq]
  refine ⟨?_, ?_, ?_, hblocks, hc.2.2.2.2.1⟩
  · intro pa w hw
    rw [hc.2.2.2.2.1, Nat.mul_comm self.number_of_sets self.assoc]
    exact (way_index_lt_iff (hc.index_lt pa) w self.assoc).2 hw
  · intro pa
    obtain ⟨w, _, hp, hlen, _, _⟩ := fill_position_flat self hc (index_from_pa self pa)
      (hc.index_lt pa)
    rw [hp]
    exact ⟨Int.ofNat_nonneg _, by rw [Int.toNat_ofNat]; exact hlen⟩
  · intro i hi
    omega

theorem C19_line_indices_in_range_witness :
    (∀ pa w, w < example_cache.assoc →
      index_from_pa example_cache pa + w * example_cache.number_of_sets <
        example_cache.lines.length) ∧
      (∀ pa, 0 ≤ fill_position example_cache example_cache.assoc
          (index_from_pa example_cache pa) ∧
        (fill_position example_cache example_cache.assoc
          (index_from_pa example_cache pa)).toNat < example_cache.lines.length) ∧
      (∀ i, i < example_cache.size / example_cache.block_size →
        i < example_cache.lines.length) ∧
      example_cache.size / example_cache.block_size = example_cache.lines.length ∧
      example_cache.lines.length = example_cache.number_of_sets * example_cache.assoc :=
  C19_line_indices_in_range example_cache (by decide)

/-! ## Timestamps of a single model -/

/-- An access that misses in a configured model, on the flat table: the victim
position is the flat index of the first way of the addressed set that holds the
least timestamp, that line is replaced and no other. -/
theorem avdc_access_miss_flat {self : avdark_cache_t} (hc : Configured self) (t : Int)
    {pa : Nat} (ty : avdc_access_type_t) (hm : only_misses self pa = true) :
    ∃ v, v < self.assoc ∧
      index_from_pa self pa + v * self.number_of_sets < self.lines.length ∧
      (∀ w', w' < self.assoc →
        way_ts self (index_from_pa self pa) v ≤ way_ts self (index_from_pa self pa) w') ∧
      (∀ w', w' < v →
        way_ts self (index_from_pa self pa) v < way_ts self (index_from_pa self pa) w') ∧
      (avdc_access self t pa ty).1.lines.length = self.lines.length ∧
      ∀ i, line_at (avdc_access self t pa ty).1 i =
        if i = index_from_pa self pa + v * self.number_of_sets then
          ⟨tag_from_pa self pa, 1, t⟩
        else line_at self i := by
  obtain ⟨v, hv, hp, hlen, h4, h5⟩ := fill_position_flat self hc (index_from_pa self pa)
    (hc.index_lt pa)
  have hlines : (avdc_access self t pa ty).1.lines =
      self.lines.set (index_from_pa self pa + v * self.number_of_sets)
        ⟨tag_from_pa self pa, 1, t⟩ := by
    rw [avdc_access_lines, if_pos hm, hp, Int.toNat_ofNat]
  refine ⟨v, hv, hlen, h4, h5, by rw [hlines, List.length_set], ?_⟩
  intro i
  have e : line_at (avdc_access self t pa ty).1 i =
      if i = index_from_pa self pa + v * self.number_of_sets ∧
          index_from_pa self pa + v * self.number_of_sets < self.lines.length then
        ⟨tag_from_pa self pa, 1, t⟩
      else line_at self i := by
    rw [← line_at_set self _ _ i]
    exact line_at_congr hlines i
  rw [e]
  by_cases hi : i = index_from_pa self pa + v * self.number_of_sets
  · rw [if_pos ⟨hi, hlen⟩, if_pos hi]
  · rw [if_neg (fun h => hi h.1), if_neg hi]

theorem AllInvalid.stampsDistinct {self : avdark_cache_t} (h : AllInvalid self) (t : Int) :
    StampsDistinct self t := by
  constructor
  · intro i _ hv
    rw [h.line_at_eq] at hv
    exact absurd rfl hv
  · intro i j _ _ hv
    rw [h.line_at_eq] at hv
    exact absurd rfl hv

/-- An access at clock `t` keeps the timestamps of the valid lines pairwise
different and moves their range to `[0, t + 1)`. -/
theorem StampsDistinct.preserved_by_access_at {self : avdark_cache_t} (hc : Configured self)
    {t : Int} (ht : 0 ≤ t) (h : StampsDistinct self t) (pa : Nat)
    (ty : avdc_access_type_t) :
    StampsDistinct (avdc_access self t pa ty).1 (t + 1) := by
  obtain ⟨h1, h2⟩ := h
  cases hm : only_misses self pa with
  | false =>
    have hl := avdc_access_hit_lines t ty hm
    constructor
    · intro i hi hv
      rw [line_at_congr hl] at hv ⊢
      rw [hl] at hi
      have := h1 i hi hv
      exact ⟨this.1, by omega⟩
    · intro i j hi hj hvi hvj hts
      rw [line_at_congr hl i] at hvi hts
      rw [line_at_congr hl j] at hvj hts
      rw [hl] at hi hj
      exact h2 i j hi hj hvi hvj hts
  | true =>
    obtain ⟨v, _, _, _, _, hlen, hl⟩ := avdc_access_miss_flat hc t ty hm
    constructor
    · intro i hi hv
      rw [hl] at hv ⊢
      rw [hlen] at hi
      by_cases hip : i = index_from_pa self pa + v * self.number_of_sets
      · rw [if_pos hip]
        exact ⟨ht, by simp⟩
      · rw [if_neg hip] at hv ⊢
        have := h1 i hi hv
        exact ⟨this.1, by omega⟩
    · intro i j hi hj hvi hvj hts
      rw [hl i] at hvi hts
      rw [hl j] at hvj hts
      rw [hlen] at hi hj
      by_cases hip : i = index_from_pa self pa + v * self.number_of_sets
      · by_cases hjp : j = index_from_pa self pa + v * self.number_of_sets
        · rw [hip, hjp]
        · exfalso
          rw [if_pos hip, if_neg hjp] at hts
          rw [if_neg hjp] at hvj
          have := (h1 j hj hvj).2
          simp only at hts
          omega
      · by_cases hjp : j = index_from_pa self pa + v * self.number_of_sets
        · exfalso
          rw [if_neg hip, if_pos hjp] at hts
          rw [if_neg hip] at hvi
          have := (h1 i hi hvi).2
          simp only at hts
          omega
        · rw [if_neg hip] at hvi hts
          rw [if_neg hjp] at hvj hts
          exact h2 i j hi hj hvi hvj hts

/-- Every state of a single model driven from clock 0 is configured, has its
clock in `[0, 2 ^ 31)` and its valid timestamps pairwise different in `[0, t)`. -/
theorem SingleReachable.single_invariant {self : avdark_cache_t} {t : Int}
    (h : SingleReachable self t) :
    Configured self ∧ 0 ≤ t ∧ t ≤ 2147483647 ∧ StampsDistinct self t := by
  induction h with
  | construct junk size block_size assoc self hg hnew =>
    obtain ⟨_, hc, hall⟩ := avdc_resize_valid junk zeroed hg
    rw [avdc_new_eq_some hnew] at hc hall
    exact ⟨hc, le_refl 0, by decide, hall.stampsDistinct 0⟩
  | access self t pa ty _ hlt ih =>
    obtain ⟨hc, h0, h1, hs⟩ := ih
    refine ⟨avdc_access_configured hc (by omega) h1 pa ty, ?_, ?_,
      hs.preserved_by_access_at hc h0 pa ty⟩
    · rw [avdc_access_clock]; omega
    · rw [avdc_access_clock]; omega
  | flush self t _ ih =>
    obtain ⟨hc, h0, h1, _⟩ := ih
    obtain ⟨hc', hall⟩ := avdc_flush_cache_configured hc
    exact ⟨hc', h0, h1, hall.stampsDistinct t⟩
  | reset self t _ ih =>
    obtain ⟨hc, h0, h1, hs⟩ := ih
    exact ⟨hc, h0, h1, hs⟩
  | resize junk size block_size assoc self t _ hg ih =>
    obtain ⟨_, hc, hall⟩ := avdc_resize_valid junk self hg
    exact ⟨hc, ih.2.1, ih.2.2.1, hall.stampsDistinct t⟩
  | resize_rejected junk size block_size assoc self t _ hz ih =>
    rw [avdc_resize_rejected_state junk self size block_size assoc hz]
    exact ih

/-! ## C20: timestamps of valid lines -/

/-- C20: for a single model constructed at clock 0 and driven by its own calls
without overflow of the clock, in every reachable state every valid line has a
timestamp that is at least 0 and below the clock, two different valid lines of
the table have different timestamps, and so in every set at most one valid way
holds the least timestamp among the valid ways. -/
theorem C20_valid_timestamps_distinct_and_below_clock (self : avdark_cache_t) (t : Int)
    (h : SingleReachable self t) :
    (∀ i, i < self.lines.length → (line_at self i).valid ≠ 0 →
      0 ≤ (line_at self i).timestamp ∧ (line_at self i).timestamp < t) ∧
      (∀ i j, i < self.lines.length → j < self.lines.length →
        (line_at self i).valid ≠ 0 → (line_at self j).valid ≠ 0 →
        (line_at self i).timestamp = (line_at self j).timestamp → i = j) ∧
      ∀ s, s < self.number_of_sets → ∀ w w', w < self.assoc → w' < self.assoc →
        (way_line self s w).valid ≠ 0 → (way_line self s w').valid ≠ 0 →
        (∀ u, u < self.assoc → (way_line self s u).valid ≠ 0 →
          way_ts self s w ≤ way_ts self s u) →
        (∀ u, u < self.assoc → (way_line self s u).valid ≠ 0 →
          way_ts self s w' ≤ way_ts self s u) →
        w = w' := by
  obtain ⟨hc, _, _, h1, h2⟩ := h.single_invariant
  refine ⟨h1, h2, ?_⟩
  intro s hs w w' hw hw' hv hv' hmin hmin'
  have hlen : ∀ u, u < self.assoc → s + u * self.number_of_sets < self.lines.length := by
    intro u hu
    rw [hc.2.2.2.2.1, Nat.mul_comm self.number_of_sets self.assoc]
    exact (way_index_lt_iff hs u self.assoc).2 hu
  have e1 := hmin w' hw' hv'
  have e2 := hmin' w hw hv
  have := h2 _ _ (hlen w hw) (hlen w' hw') hv hv' (le_antisymm e1 e2)
  exact way_index_inj hc.sets_pos this

theorem C20_valid_timestamps_distinct_and_below_clock_witness :
    (∀ i, i < (avdc_access example_cache 0 32 .AVDC_READ).1.lines.length →
      (line_at (avdc_access example_cache 0 32 .AVDC_READ).1 i).valid ≠ 0 →
      0 ≤ (line_at (avdc_access example_cache 0 32 .AVDC_READ).1 i).timestamp ∧
        (line_at (avdc_access example_cache 0 32 .AVDC_READ).1 i).timestamp <
          (avdc_access example_cache 0 32 .AVDC_READ).2) ∧
      (∀ i j, i < (avdc_access example_cache 0 32 .AVDC_READ).1.lines.length →
        j < (avdc_access example_cache 0 32 .AVDC_READ).1.lines.length →
        (line_at (avdc_access example_cache 0 32 .AVDC_READ).1 i).valid ≠ 0 →
        (line_at (avdc_access example_cache 0 32 .AVDC_READ).1 j).valid ≠ 0 →
        (line_at (avdc_access example_cache 0 32 .AVDC_READ).1 i).timestamp =
          (line_at (avdc_access example_cache 0 32 .AVDC_READ).1 j).timestamp → i = j) ∧
      ∀ s, s < (avdc_access example_cache 0 32 .AVDC_READ).1.number_of_sets →
        ∀ w w', w < (avdc_access example_cache 0 32 .AVDC_READ).1.assoc →
        w' < (avdc_access example_cache 0 32 .AVDC_READ).1.assoc →
        (way_line (avdc_access example_cache 0 32 .AVDC_READ).1 s w).valid ≠ 0 →
        (way_line (avdc_access example_cache 0 32 .AVDC_READ).1 s w').valid ≠ 0 →
        (∀ u, u < (avdc_access example_cache 0 32 .AVDC_READ).1.assoc →
          (way_line (avdc_access example_cache 0 32 .AVDC_READ).1 s u).valid ≠ 0 →
          way_ts (avdc_access example_cache 0 32 .AVDC_READ).1 s w ≤
            way_ts (avdc_access example_cache 0 32 .AVDC_READ).1 s u) →
        (∀ u, u < (avdc_access example_cache 0 32 .AVDC_READ).1.assoc →
          (way_line (avdc_access example_cache 0 32 .AVDC_READ).1 s u).valid ≠ 0 →
          way_ts (avdc_access example_cache 0 32 .AVDC_READ).1 s w' ≤
            way_ts (avdc_access example_cache 0 32 .AVDC_READ).1 s u) →
        w = w' :=
  C20_valid_timestamps_distinct_and_below_clock _ _
    (SingleReachable.access example_cache 0 32 .AVDC_READ
      (SingleReachable.construct junk_lines 64 16 2 example_cache (by decide) (by decide))
      (by decide))

/-! ## Two models sharing the clock -/

theorem SameGeometry.symm_geometry {a b : avdark_cache_t} (h : SameGeometry a b) :
    SameGeometry b a :=
  ⟨h.1.symm, h.2.1.symm, h.2.2.1.symm, h.2.2.2.1.symm, h.2.2.2.2.1.symm, h.2.2.2.2.2.symm⟩

theorem SameContents.only_misses_eq {b2 b1 : avdark_cache_t} (h : SameContents b2 b1)
    (pa : Nat) : only_misses b2 pa = only_misses b1 pa := by
  obtain ⟨hg, _, _, _, _, _, hl⟩ := h
  rw [Bool.eq_iff_iff, only_misses_iff, only_misses_iff, hg.index_eq, hg.tag_eq, hg.2.2.1]
  have hw : ∀ w, way_hits b2 (index_from_pa b1 pa) (tag_from_pa b1 pa) w ↔
      way_hits b1 (index_from_pa b1 pa) (tag_from_pa b1 pa) w := by
    intro w
    unfold way_hits way_line
    rw [hg.2.2.2.1, (hl _).1, (hl _).2]
  constructor
  · intro h w hw' hh
    exact h w hw' ((hw w).2 hh)
  · intro h w hw' hh
    exact h w hw' ((hw w).1 hh)

/-- With timestamps in the same order, the first way holding the least timestamp
of a set is the same way in both models. -/
theorem victim_same {b2 b1 : avdark_cache_t} (hc1 : Configured b1)
    (hg : SameGeometry b2 b1) (ho : SameOrder b2 b1) {s : Nat}
    (hs : s < b1.number_of_sets) {v2 v1 : Nat} (hv2 : v2 < b1.assoc) (hv1 : v1 < b1.assoc)
    (hmin2 : ∀ w', w' < b1.assoc → way_ts b2 s v2 ≤ way_ts b2 s w')
    (hfirst2 : ∀ w', w' < v2 → way_ts b2 s v2 < way_ts b2 s w')
    (hmin1 : ∀ w', w' < b1.assoc → way_ts b1 s v1 ≤ way_ts b1 s w')
    (hfirst1 : ∀ w', w' < v1 → way_ts b1 s v1 < way_ts b1 s w') :
    v2 = v1 := by
  have hlen : ∀ u, u < b1.assoc → s + u * b1.number_of_sets < b1.lines.length := by
    intro u hu
    rw [hc1.2.2.2.2.1, Nat.mul_comm b1.number_of_sets b1.assoc]
    exact (way_index_lt_iff hs u b1.assoc).2 hu
  have o1 := ho _ _ (hlen v2 hv2) (hlen v1 hv1)
  have o2 := ho _ _ (hlen v1 hv1) (hlen v2 hv2)
  have a1 := hmin2 v1 hv1
  have a2 := hmin1 v2 hv2
  unfold way_ts way_line at a1 a2 hfirst1 hfirst2
  rw [hg.2.2.2.1] at a1 hfirst2
  rcases Nat.lt_trichotomy v2 v1 with hlt | heq | hgt
  · exfalso
    have := hfirst1 v2 hlt
    have := o2.2 this
    omega
  · exact heq
  · exfalso
    have := hfirst2 v1 hgt
    have := o1.1 this
    omega

/-- One access to two models with the same contents and the same order of
timestamps, each at its own clock value above all its timestamps: the access is
classified the same way, and the two models stay related. -/
theorem sim_step {b2 b1 : avdark_cache_t} (hc2 : Configured b2) (hc1 : Configured b1)
    (hs : SameContents b2 b1) (ho : SameOrder b2 b1) {t2 t1 : Int}
    (hb2 : StampsBelow b2 t2) (hb1 : StampsBelow b1 t1) (pa : Nat)
    (ty : avdc_access_type_t) :
    only_misses b2 pa = only_misses b1 pa ∧
      SameContents (avdc_access b2 t2 pa ty).1 (avdc_access b1 t1 pa ty).1 ∧
      SameOrder (avdc_access b2 t2 pa ty).1 (avdc_access b1 t1 pa ty).1 ∧
      StampsBelow (avdc_access b2 t2 pa ty).1 (t2 + 1) ∧
      StampsBelow (avdc_access b1 t1 pa ty).1 (t1 + 1) := by
  have hm := hs.only_misses_eq pa
  obtain ⟨hg, s1, s2, s3, s4, hlen, hl⟩ := hs
  have hg' : SameGeometry (avdc_access b2 t2 pa ty).1 (avdc_access b1 t1 pa ty).1 :=
    ((avdc_access_geometry b2 t2 pa ty).trans_geometry hg).trans_geometry
      (avdc_access_geometry b1 t1 pa ty).symm_geometry
  obtain ⟨x1, x2, x3, x4⟩ := avdc_access_stats b2 t2 pa ty
  obtain ⟨y1, y2, y3, y4⟩ := avdc_access_stats b1 t1 pa ty
  have st1 : (avdc_access b2 t2 pa ty).1.stat_data_read =
      (avdc_access b1 t1 pa ty).1.stat_data_read := by rw [x1, y1, s1]
  have st2 : (avdc_access b2 t2 pa ty).1.stat_data_read_miss =
      (avdc_access b1 t1 pa ty).1.stat_data_read_miss := by rw [x2, y2, s2, hm]
  have st3 : (avdc_access b2 t2 pa ty).1.stat_data_write =
      (avdc_access b1 t1 pa ty).1.stat_data_write := by rw [x3, y3, s3]
  have st4 : (avdc_access b2 t2 pa ty).1.stat_data_write_miss =
      (avdc_access b1 t1 pa ty).1.stat_data_write_miss := by rw [x4, y4, s4, hm]
  refine ⟨hm, ?_⟩
  cases hcase : only_misses b1 pa with
  | false =>
    have hcase2 : only_misses b2 pa = false := by rw [hm, hcase]
    have l2 := avdc_access_hit_lines t2 ty hcase2
    have l1 := avdc_access_hit_lines t1 ty hcase
    refine ⟨⟨hg', st1, st2, st3, st4, by rw [l2, l1, hlen], ?_⟩, ?_, ?_, ?_⟩
    · intro i
      rw [line_at_congr l2 i, line_at_congr l1 i]
      exact hl i
    · intro i j hi hj
      rw [l1] at hi hj
      rw [line_at_congr l2 i, line_at_congr l1 i, line_at_congr l2 j, line_at_congr l1 j]
      exact ho i j hi hj
    · intro i hi
      rw [l2] at hi
      rw [line_at_congr l2 i]
      have := hb2 i hi
      omega
    · intro i hi
      rw [l1] at hi
      rw [line_at_congr l1 i]
      have := hb1 i hi
      omega
  | true =>
    have hcase2 : only_misses b2 pa = true := by rw [hm, hcase]
    obtain ⟨v2, hv2, _, hmin2, hfirst2, len2, e2⟩ := avdc_access_miss_flat hc2 t2 ty hcase2
    obtain ⟨v1, hv1, _, hmin1, hfirst1, len1, e1⟩ := avdc_access_miss_flat hc1 t1 ty hcase
    rw [hg.index_eq, hg.2.2.1] at hmin2
    rw [hg.index_eq] at hfirst2
    rw [hg.2.2.1] at hv2
    have hv : v2 = v1 := victim_same hc1 hg ho (hc1.index_lt pa) hv2 hv1 hmin2 hfirst2
      hmin1 hfirst1
    rw [hg.index_eq, hg.2.2.2.1, hg.tag_eq, hv] at e2
    refine ⟨⟨hg', st1, st2, st3, st4, by rw [len2, len1, hlen], ?_⟩, ?_, ?_, ?_⟩
    · intro i
      rw [e2 i, e1 i]
      by_cases hi : i = index_from_pa b1 pa + v1 * b1.number_of_sets
      · rw [if_pos hi, if_pos hi]
        exact ⟨rfl, rfl⟩
      · rw [if_neg hi, if_neg hi]
        exact hl i
    · intro i j hi hj
      rw [len1] at hi hj
      have bi2 := hb2 i (by omega)
      have bj2 := hb2 j (by omega)
      have bi1 := hb1 i hi
      have bj1 := hb1 j hj
      rw [e2 i, e1 i, e2 j, e1 j]
      by_cases hip : i = index_from_pa b1 pa + v1 * b1.number_of_sets
      · by_cases hjp : j = index_from_pa b1 pa + v1 * b1.number_of_sets
        · rw [if_pos hip, if_pos hip, if_pos hjp, if_pos hjp]
          simp
        · rw [if_pos hip, if_pos hip, if_neg hjp, if_neg hjp]
          simp only
          constructor <;> intro h <;> omega
      · by_cases hjp : j = index_from_pa b1 pa + v1 * b1.number_of_sets
        · rw [if_neg hip, if_neg hip, if_pos hjp, if_pos hjp]
          simp only
          constructor <;> intro _ <;> omega
        · rw [if_neg hip, if_neg hip, if_neg hjp, if_neg hjp]
          exact ho i j hi hj
    · intro i hi
      rw [len2] at hi
      rw [e2 i]
      by_cases hip : i = index_from_pa b1 pa + v1 * b1.number_of_sets
      · rw [if_pos hip]; simp
      · rw [if_neg hip]
        have := hb2 i hi
        omega
    · intro i hi
      rw [len1] at hi
      rw [e1 i]
      by_cases hip : i = index_from_pa b1 pa + v1 * b1.number_of_sets
      · rw [if_pos hip]; simp
      · rw [if_neg hip]
        have := hb1 i hi
        omega

theorem run_two_cons_A (A B : avdark_cache_t) (t : Int) (pa : Nat) (ty : avdc_access_type_t)
    (rest : List (Bool × Nat × avdc_access_type_t)) :
    run_two A B t ((true, pa, ty) :: rest) =
      run_two (avdc_access A t pa ty).1 B (t + 1) rest :=
  rfl

theorem run_two_cons_B (A B : avdark_cache_t) (t : Int) (pa : Nat) (ty : avdc_access_type_t)
    (rest : List (Bool × Nat × avdc_access_type_t)) :
    run_two A B t ((false, pa, ty) :: rest) =
      ((run_two A (avdc_access B t pa ty).1 (t + 1) rest).1,
        (run_two A (avdc_access B t pa ty).1 (t + 1) rest).2.1,
        (run_two A (avdc_access B t pa ty).1 (t + 1) rest).2.2.1,
        only_misses B pa :: (run_two A (avdc_access B t pa ty).1 (t + 1) rest).2.2.2) :=
  rfl

/-- Running `B` next to another model against running `B` alone: as long as the
two copies of `B` have the same contents and order of timestamps and each clock
is above the timestamps of its copy, the accesses to `B` are classified the same
way and the copies stay related. -/
theorem run_two_sim (events : List (Bool × Nat × avdc_access_type_t)) :
    ∀ (A b2 b1 : avdark_cache_t) (t2 t1 : Int),
      Configured b2 → Configured b1 → SameContents b2 b1 → SameOrder b2 b1 →
      StampsBelow b2 t2 → StampsBelow b1 t1 → -2147483648 ≤ t1 → t1 ≤ t2 →
      t2 + (events.length : Int) ≤ 2147483647 →
      (run_two A b2 t2 events).2.2.2 = (run_trace b1 t1 (accesses_of_B events)).2.2 ∧
        SameContents (run_two A b2 t2 events).2.1
          (run_trace b1 t1 (accesses_of_B events)).1 ∧
        SameOrder (run_two A b2 t2 events).2.1
          (run_trace b1 t1 (accesses_of_B events)).1 := by
  induction events with
  | nil =>
    intro A b2 b1 t2 t1 _ _ hs ho _ _ _ _ _
    exact ⟨rfl, hs, ho⟩
  | cons e rest ih =>
    intro A b2 b1 t2 t1 hc2 hc1 hs ho hb2 hb1 h1 h12 hbound
    simp only [List.length_cons, Nat.cast_add, Nat.cast_one] at hbound
    obtain ⟨onA, pa, ty⟩ := e
    cases onA with
    | true =>
      have hacc : accesses_of_B ((true, pa, ty) :: rest) = accesses_of_B rest := rfl
      rw [run_two_cons_A, hacc]
      exact ih (avdc_access A t2 pa ty).1 b2 b1 (t2 + 1) t1 hc2 hc1 hs ho
        (fun i hi => by have := hb2 i hi; omega) hb1 h1 (by omega) (by omega)
    | false =>
      have hacc : accesses_of_B ((false, pa, ty) :: rest) =
          (pa, ty) :: accesses_of_B rest := rfl
      obtain ⟨hm, hs', ho', hb2', hb1'⟩ := sim_step hc2 hc1 hs ho hb2 hb1 pa ty
      have hc2' : Configured (avdc_access b2 t2 pa ty).1 :=
        avdc_access_configured hc2 (by omega) (by omega) pa ty
      have hc1' : Configured (avdc_access b1 t1 pa ty).1 :=
        avdc_access_configured hc1 (by omega) (by omega) pa ty
      obtain ⟨r1, r2, r3⟩ := ih A (avdc_access b2 t2 pa ty).1 (avdc_access b1 t1 pa ty).1
        (t2 + 1) (t1 + 1) hc2' hc1' hs' ho' hb2' hb1' (by omega) (by omega) (by omega)
      rw [run_two_cons_B, hacc, run_trace_cons]
      simp only
      exact ⟨by rw [r1, hm], r2, r3⟩

theorem SameContents.refl_contents (b : avdark_cache_t) : SameContents b b :=
  ⟨SameGeometry.refl_geometry b, rfl, rfl, rfl, rfl, rfl, fun _ => ⟨rfl, rfl⟩⟩

/-! ## C14: two models and the process-wide clock -/

/-- C14, the statement as written fails: two models `A` and `B` constructed with
size 64, block size 16 and associativity 2 at clock 0.  When `A` is accessed once
before `B` receives the accesses 0, 32, 0, the third access to `B` hits, while
without the access to `A` it misses; the resulting line table of `B` and its
read-miss counter differ as well.  From clock 1 the classification no longer
depends on `A`, but the timestamp `B` stores for its line still does. -/
theorem C14_access_to_other_model_changes_classification :
    avdc_new junk_lines 64 16 2 = some example_cache ∧
      accesses_of_B [(true, 0, .AVDC_READ), (false, 0, .AVDC_READ),
        (false, 32, .AVDC_READ), (false, 0, .AVDC_READ)] = [rd 0, rd 32, rd 0] ∧
      (run_two example_cache example_cache 0 [(true, 0, .AVDC_READ), (false, 0, .AVDC_READ),
        (false, 32, .AVDC_READ), (false, 0, .AVDC_READ)]).2.2.2 = [true, true, false] ∧
      (run_trace example_cache 0 [rd 0, rd 32, rd 0]).2.2 = [true, true, true] ∧
      (run_two example_cache example_cache 0 [(true, 0, .AVDC_READ), (false, 0, .AVDC_READ),
        (false, 32, .AVDC_READ), (false, 0, .AVDC_READ)]).2.1.lines ≠
        (run_trace example_cache 0 [rd 0, rd 32, rd 0]).1.lines ∧
      (run_two example_cache example_cache 0 [(true, 0, .AVDC_READ), (false, 0, .AVDC_READ),
        (false, 32, .AVDC_READ), (false, 0, .AVDC_READ)]).2.1.stat_data_read_miss ≠
        (run_trace example_cache 0 [rd 0, rd 32, rd 0]).1.stat_data_read_miss ∧
      (run_two example_cache example_cache 1 [(true, 0, .AVDC_READ),
        (false, 0, .AVDC_READ)]).2.1.lines =
        [⟨0, 1, 2⟩, ⟨0, 0, 0⟩, ⟨0, 0, 0⟩, ⟨0, 0, 0⟩] ∧
      (run_trace example_cache 1 [rd 0]).1.lines =
        [⟨0, 1, 1⟩, ⟨0, 0, 0⟩, ⟨0, 0, 0⟩, ⟨0, 0, 0⟩] := by
  decide

/-- C14, amended: all models share the one process-wide clock, so accesses to
another model `A` advance the clock `B` stamps its lines with.  When `B` is
configured, every timestamp stored in `B` is below the clock and the clock does
not overflow, then for every sequence of accesses to `A` and `B` the accesses to
`B` are classified as they are when `B` receives them alone, and `B` ends with
the same geometry, the same four counters, the same tag and valid bit in every
line and its timestamps in the same order. -/
theorem C14_shared_clock_keeps_classification (A B : avdark_cache_t) (hc : Configured B)
    (t : Int) (hbelow : StampsBelow B t) (ht : -2147483648 ≤ t)
    (events : List (Bool × Nat × avdc_access_type_t))
    (hbound : t + (events.length : Int) ≤ 2147483647) :
    (run_two A B t events).2.2.2 = (run_trace B t (accesses_of_B events)).2.2 ∧
      SameContents (run_two A B t events).2.1 (run_trace B t (accesses_of_B events)).1 ∧
      SameOrder (run_two A B t events).2.1 (run_trace B t (accesses_of_B events)).1 :=
  run_two_sim events A B B t t hc hc (SameContents.refl_contents B)
    (fun _ _ _ _ => Iff.rfl) hbelow hbelow ht (le_refl t) hbound

theorem C14_shared_clock_keeps_classification_witness :
    (run_two example_cache example_cache 1 [(true, 0, .AVDC_READ), (false, 0, .AVDC_READ),
        (true, 64, .AVDC_WRITE), (false, 32, .AVDC_READ), (false, 0, .AVDC_READ)]).2.2.2 =
        (run_trace example_cache 1 (accesses_of_B [(true, 0, .AVDC_READ),
          (false, 0, .AVDC_READ), (true, 64, .AVDC_WRITE), (false, 32, .AVDC_READ),
          (false, 0, .AVDC_READ)])).2.2 ∧
      SameContents (run_two example_cache example_cache 1 [(true, 0, .AVDC_READ),
        (false, 0, .AVDC_READ), (true, 64, .AVDC_WRITE), (false, 32, .AVDC_READ),
        (false, 0, .AVDC_READ)]).2.1
        (run_trace example_cache 1 (accesses_of_B [(true, 0, .AVDC_READ),
          (false, 0, .AVDC_READ), (true, 64, .AVDC_WRITE), (false, 32, .AVDC_READ),
          (false, 0, .AVDC_READ)])).1 ∧
      SameOrder (run_two example_cache example_cache 1 [(true, 0, .AVDC_READ),
        (false, 0, .AVDC_READ), (true, 64, .AVDC_WRITE), (false, 32, .AVDC_READ),
        (false, 0, .AVDC_READ)]).2.1
        (run_trace example_cache 1 (accesses_of_B [(true, 0, .AVDC_READ),
          (false, 0, .AVDC_READ), (true, 64, .AVDC_WRITE), (false, 32, .AVDC_READ),
          (false, 0, .AVDC_READ)])).1 :=
  C14_shared_clock_keeps_classification example_cache example_cache (by decide) 1
    (by decide) (by decide) _ (by decide)

end AvdarkCache
